import Mathlib

/-!
Verification development for the pvview TimeSeriesDB repository.

The file embeds, as Lean definitions over lists of bytes (`List Nat`, each
element a byte value), the TSDB day-file format described by the repository
format document (src/unnamed/part_000) together with the writer, decoder and
query facade described by the specification, and the pure helper functions of
the dashboard frontends (src/web/app.js, src/unnamed/part_001 .. part_003).
Theorems about the claims C1..C10 follow the definitions.
-/

namespace PvView

/-! ## Primitive codec (little-endian integers)

Fixed-width little-endian integer reads and writes, including the 3-byte
signed form with sign extension, as described by the format document and
spec section 4.1. -/

/-- Value of a byte list interpreted as a little-endian unsigned integer. -/
def leVal (bs : List Nat) : Nat :=
  bs.foldr (fun b acc => b + 256 * acc) 0

/-- Little-endian encoding of a value into exactly `w` bytes (truncating). -/
def leBytes : Nat → Nat → List Nat
  | 0, _ => []
  | w + 1, v => v % 256 :: leBytes w (v / 256)

/-- Sign extension: reinterpret a `w`-byte unsigned value as signed
(two's complement), extending the top bit. -/
def toSigned (w v : Nat) : Int :=
  if v < 2 ^ (8 * w - 1) then (v : Int) else (v : Int) - 2 ^ (8 * w)

/-- Two's-complement encoding of a signed value into `w` bytes (as a Nat). -/
def twos (w : Nat) (x : Int) : Nat :=
  (x % (2 ^ (8 * w) : Int)).toNat

/-- Error taxonomy of the format engine (spec section 7). -/
inductive FormatError where
  | BadMagic
  | UnsupportedVersion
  | UnknownEntryType
  | UnknownFormat
  | UnknownChannel
  | DuplicateChannel
  | DenseAllocation
  | MissingTimestamp
  | ShortRead
  | Truncated
  | StringTooLong
  | InvalidChannelIdRange
deriving DecidableEq, Repr

/-- Read a `w`-byte little-endian unsigned integer from the head of a byte
stream, returning the value and the remaining stream. -/
def readN (w : Nat) (bs : List Nat) : Except FormatError (Nat × List Nat) :=
  if w ≤ bs.length then .ok (leVal (bs.take w), bs.drop w) else .error .ShortRead

/-- Read `w` raw bytes from the head of a byte stream. -/
def readB (w : Nat) (bs : List Nat) : Except FormatError (List Nat × List Nat) :=
  if w ≤ bs.length then .ok (bs.take w, bs.drop w) else .error .ShortRead

/-! ## Value codec

Mapping between format ids and on-disk payload layout (format-id table of the
format document). Float and double payloads are carried as raw bit patterns;
integer formats with a decimal divisor decode to exact rationals. -/

/-- Decoded value domain: numbers (rationals, exact for all integer and
fixed-point formats), strings (raw UTF-8 bytes), and raw IEEE-754 bit
patterns for the float/double formats. -/
inductive Value where
  | num (q : ℚ)
  | str (s : List Nat)
  | f32 (bits : Nat)
  | f64 (bits : Nat)
deriving DecidableEq, Repr

/-- Payload layout selected by a format id. -/
inductive PayloadKind where
  | float32
  | float64
  | string (lenWidth : Nat)
  | intK (width : Nat) (signed : Bool) (nibble : Nat)
deriving DecidableEq, Repr

/-- Byte width of the integer group of a format id (the high nibble):
groups 1..5 are signed int8/16/24/32/64, groups 9..13 (0x9?..0xd?) are the
unsigned widths. -/
def intGroupWidth (g : Nat) : Option Nat :=
  match g with
  | 1 => some 1
  | 2 => some 2
  | 3 => some 3
  | 4 => some 4
  | 5 => some 8
  | 9 => some 1
  | 10 => some 2
  | 11 => some 3
  | 12 => some 4
  | 13 => some 8
  | _ => none

/-- Payload layout for each format id, per the format-id table:
0x00 float, 0x01..0x07 double, 0x08..0x0b strings with growing length
prefix, 0xG0..0xG3 integers of the group width with divisor 10^nibble. -/
def payloadKind (fid : Nat) : Option PayloadKind :=
  if fid = 0x00 then some .float32
  else if fid ≤ 0x07 then some .float64
  else if fid = 0x08 then some (.string 1)
  else if fid = 0x09 then some (.string 2)
  else if fid = 0x0a then some (.string 4)
  else if fid = 0x0b then some (.string 8)
  else
    match intGroupWidth (fid / 16) with
    | some w => if fid % 16 ≤ 3 then some (.intK w (decide (fid / 16 ≤ 5)) (fid % 16)) else none
    | none => none

/-- Display-decimals hint of a format id: for the double formats 0x01..0x07
it is the format id minus one; for divisor integer formats it is the divisor
exponent (the low nibble); otherwise 0. -/
def decimalsOfFormat (fid : Nat) : Nat :=
  if fid = 0 then 0
  else if fid ≤ 7 then fid - 1
  else
    match payloadKind fid with
    | some (.intK _ _ nib) => nib
    | _ => 0

/-- Decode one value payload for format id `fid` from the head of `bs`,
returning the decoded value and the remaining stream. -/
def decodePayload (fid : Nat) (bs : List Nat) : Except FormatError (Value × List Nat) :=
  match payloadKind fid with
  | none => .error .UnknownFormat
  | some .float32 =>
    match readN 4 bs with
    | .error e => .error e
    | .ok (v, rest) => .ok (.f32 v, rest)
  | some .float64 =>
    match readN 8 bs with
    | .error e => .error e
    | .ok (v, rest) => .ok (.f64 v, rest)
  | some (.string lw) =>
    match readN lw bs with
    | .error e => .error e
    | .ok (len, rest) =>
      if len ≤ rest.length then .ok (.str (rest.take len), rest.drop len)
      else .error .StringTooLong
  | some (.intK w signed nib) =>
    match readN w bs with
    | .error e => .error e
    | .ok (v, rest) =>
      let x : Int := if signed then toSigned w v else (v : Int)
      .ok (.num ((x : ℚ) / (10 ^ nib : ℚ)), rest)

/-! ## Stream decoder

State machine walking the entry stream after the header (format document
"Entry" sections; spec section 4.4). -/

/-- Decoder state: the current timestamp (unset until the first time entry)
and the per-file channel table built from channel-definition entries, each
entry `(channelId, formatId, name)`. -/
structure DecState where
  currentTimestamp : Option Nat
  channels : List (Nat × Nat × List Nat)
deriving DecidableEq, Repr

/-- Decoded record stream element. -/
inductive Record where
  | chanDef (id fid : Nat) (name : List Nat)
  | timeSet (ms : Nat)
  | value (name : List Nat) (fid : Nat) (ts : Nat) (v : Value)
  | eof
deriving DecidableEq, Repr

/-- Look up a channel id in the channel table, returning its format id and
name. -/
def lookupChan : List (Nat × Nat × List Nat) → Nat → Option (Nat × List Nat)
  | [], _ => none
  | (id, fid, nm) :: rest, i => if id = i then some (fid, nm) else lookupChan rest i

/-- Decode a single entry from the head of the stream: returns the record,
the successor decoder state and the remaining bytes. Entry layouts follow
the format document: value entries 0x00..0xef and the 0xff escape, time
entries 0xf0..0xf4, channel definitions 0xf5/0xf6, end-of-file 0xfe. -/
def decodeEntry (st : DecState) (bs : List Nat) :
    Except FormatError (Record × DecState × List Nat) :=
  match bs with
  | [] => .error .ShortRead
  | t :: r =>
    if t ≤ 0xef then
      match st.currentTimestamp with
      | none => .error .MissingTimestamp
      | some ts =>
        match lookupChan st.channels t with
        | none => .error .UnknownChannel
        | some (fid, nm) =>
          match decodePayload fid r with
          | .error e => .error e
          | .ok (v, rest) => .ok (.value nm fid ts v, st, rest)
    else if t = 0xff then
      match readN 2 r with
      | .error e => .error e
      | .ok (cid, r2) =>
        if cid < 0xf0 then .error .InvalidChannelIdRange
        else
          match st.currentTimestamp with
          | none => .error .MissingTimestamp
          | some ts =>
            match lookupChan st.channels cid with
            | none => .error .UnknownChannel
            | some (fid, nm) =>
              match decodePayload fid r2 with
              | .error e => .error e
              | .ok (v, rest) => .ok (.value nm fid ts v, st, rest)
    else if t = 0xf0 then
      match readN 8 r with
      | .error e => .error e
      | .ok (ms, rest) => .ok (.timeSet ms, ⟨some ms, st.channels⟩, rest)
    else if t ≤ 0xf4 then
      match readN (t - 0xf0) r with
      | .error e => .error e
      | .ok (d, rest) =>
        match st.currentTimestamp with
        | none => .error .MissingTimestamp
        | some ts => .ok (.timeSet (ts + d), ⟨some (ts + d), st.channels⟩, rest)
    else if t = 0xf5 then
      match readN 1 r with
      | .error e => .error e
      | .ok (id, r2) =>
        if 0xef < id then .error .InvalidChannelIdRange
        else
          match lookupChan st.channels id with
          | some _ => .error .DuplicateChannel
          | none =>
            match readN 1 r2 with
            | .error e => .error e
            | .ok (fid, r3) =>
              match readN 1 r3 with
              | .error e => .error e
              | .ok (nlen, r4) =>
                match readB nlen r4 with
                | .error e => .error e
                | .ok (nm, rest) =>
                  .ok (.chanDef id fid nm,
                       ⟨st.currentTimestamp, st.channels ++ [(id, fid, nm)]⟩, rest)
    else if t = 0xf6 then
      match readN 2 r with
      | .error e => .error e
      | .ok (id, r2) =>
        if id < 0xf0 then .error .InvalidChannelIdRange
        else
          match lookupChan st.channels id with
          | some _ => .error .DuplicateChannel
          | none =>
            match readN 1 r2 with
            | .error e => .error e
            | .ok (fid, r3) =>
              match readN 1 r3 with
              | .error e => .error e
              | .ok (nlen, r4) =>
                match readB nlen r4 with
                | .error e => .error e
                | .ok (nm, rest) =>
                  .ok (.chanDef id fid nm,
                       ⟨st.currentTimestamp, st.channels ++ [(id, fid, nm)]⟩, rest)
    else if t = 0xfe then
      if r = [] then .ok (.eof, st, []) else .error .Truncated
    else .error .UnknownEntryType

/-- Run the entry decoder to the end of the stream, collecting records, the
final state and the error (if any) that stopped it. `fuel` bounds recursion
and is always supplied as more than the stream length. -/
def decodeCore : Nat → DecState → List Nat → List Record × DecState × Option FormatError
  | 0, st, _ => ([], st, some .ShortRead)
  | _ + 1, st, [] => ([], st, none)
  | fuel + 1, st, b :: bs =>
    match decodeEntry st (b :: bs) with
    | .error e => ([], st, some e)
    | .ok (r, st2, rest) =>
      let x := decodeCore fuel st2 rest
      (r :: x.1, x.2.1, x.2.2)

/-- Errors caused by the byte stream ending in the middle of an entry. -/
def truncClass : FormatError → Bool
  | .ShortRead => true
  | .StringTooLong => true
  | _ => false

/-- Decode an entry stream. For an unfinalized file a truncation in the
trailing entry stops cleanly at the last complete entry; for a finalized
file it is the error `Truncated`. Other errors surface as-is. -/
def decodeEntries (fin : Bool) (st : DecState) (bs : List Nat) :
    Except FormatError (List Record) :=
  let x := decodeCore (bs.length + 1) st bs
  match x.2.2 with
  | none => .ok x.1
  | some e =>
    if truncClass e then (if fin then .error .Truncated else .ok x.1)
    else .error e

/-- The 8-byte magic: ASCII "TSDB" padded with zeros. -/
def magic : List Nat := [0x54, 0x53, 0x44, 0x42, 0, 0, 0, 0]

/-- The 12-byte file header: magic followed by version 1, little-endian. -/
def header : List Nat := magic ++ leBytes 4 1

/-- Initial decoder state: no timestamp, empty channel table. -/
def initDec : DecState := ⟨none, []⟩

/-- Decode a whole day file: check magic and version, then decode the entry
stream. A file shorter than the header is accepted as empty if it is a
prefix of the header and the file is unfinalized (not-yet-written tail of a
crashed create); for a finalized file a short header is `Truncated`. -/
def decodeFile (fin : Bool) (bs : List Nat) : Except FormatError (List Record) :=
  if bs.length < 12 then
    if fin then .error .Truncated
    else if bs = header.take bs.length then .ok [] else .error .BadMagic
  else if bs.take 8 ≠ magic then .error .BadMagic
  else if leVal ((bs.drop 8).take 4) ≠ 1 then .error .UnsupportedVersion
  else decodeEntries fin initDec (bs.drop 12)

/-! ## Writer / appender

Modelled from the spec: the writer and appender (spec section 4.5) are part
of the TimeSeriesDB engine, whose implementation is not among the repository
source files (only the format document and the web frontends are); the
definitions below follow the spec's contract for `append`: define the
channel on first use with dense id allocation (8-bit ids first, 16-bit ids
from 0xf0 once all 240 are taken), emit a time entry in the smallest legal
encoding (absolute on first use or when time moves backward, otherwise the
narrowest relative form, skipped when the delta is zero and a value was
already written for this timestamp), then the value entry, using the 0xff
escape for 16-bit channel ids. -/

/-- Typed values handed to the writer. -/
inductive AppendValue where
  | int (x : Int)
  | str (s : List Nat)
  | f32 (bits : Nat)
  | f64 (bits : Nat)
deriving DecidableEq, Repr

/-- One `append` request: channel name, format id, timestamp (ms UTC) and
the value. -/
structure Append where
  name : List Nat
  fid : Nat
  ts : Nat
  val : AppendValue
deriving DecidableEq, Repr

/-- Encode a value payload for a format id; `none` when the value does not
fit the format (wrong variant, out-of-range integer, over-long string). -/
def encodePayload (fid : Nat) (av : AppendValue) : Option (List Nat) :=
  match payloadKind fid, av with
  | some .float32, .f32 b => if b < 2 ^ 32 then some (leBytes 4 b) else none
  | some .float64, .f64 b => if b < 2 ^ 64 then some (leBytes 8 b) else none
  | some (.string lw), .str s =>
    if s.length < 2 ^ (8 * lw) then some (leBytes lw s.length ++ s) else none
  | some (.intK w signed _), .int x =>
    if signed then
      if -(2 ^ (8 * w - 1)) ≤ x ∧ x < 2 ^ (8 * w - 1) then some (leBytes w (twos w x)) else none
    else
      if 0 ≤ x ∧ x < 2 ^ (8 * w) then some (leBytes w x.toNat) else none
  | _, _ => none

/-- Abstract decoded value the writer expects back for an append. -/
def decodedValue (fid : Nat) (av : AppendValue) : Value :=
  match payloadKind fid, av with
  | some .float32, .f32 b => .f32 b
  | some .float64, .f64 b => .f64 b
  | some (.string _), .str s => .str s
  | some (.intK _ _ nib), .int x => .num ((x : ℚ) / (10 ^ nib : ℚ))
  | _, _ => .num 0

/-- Look up a channel by name in the writer's registry, returning its id and
format id. -/
def lookupName : List (Nat × Nat × List Nat) → List Nat → Option (Nat × Nat)
  | [], _ => none
  | (id, fid, nm) :: rest, n => if nm = n then some (id, fid) else lookupName rest n

/-- Bytes of a channel-definition entry (0xf5 for 8-bit ids, 0xf6 for
16-bit ids). -/
def chanDefBytes (id fid : Nat) (name : List Nat) : List Nat :=
  if id ≤ 0xef then 0xf5 :: id :: fid :: name.length :: name
  else 0xf6 :: (leBytes 2 id ++ fid :: name.length :: name)

/-- Bytes of the time entry the writer emits before a value at time `ts`
(smallest legal encoding; empty when the entry is skipped). -/
def timeEntryBytes (lastTs : Option Nat) (valueAtTs : Bool) (ts : Nat) : List Nat :=
  match lastTs with
  | none => 0xf0 :: leBytes 8 ts
  | some l =>
    if ts < l then 0xf0 :: leBytes 8 ts
    else
      let d := ts - l
      if d = 0 ∧ valueAtTs then []
      else if d ≤ 0xff then 0xf1 :: leBytes 1 d
      else if d ≤ 0xffff then 0xf2 :: leBytes 2 d
      else if d ≤ 0xffffff then 0xf3 :: leBytes 3 d
      else 0xf4 :: leBytes 4 d

/-- Bytes of a value entry: the id byte directly for 8-bit channel ids, the
0xff escape and a 16-bit id otherwise, followed by the payload. -/
def valueEntryBytes (id : Nat) (payload : List Nat) : List Nat :=
  if id ≤ 0xef then id :: payload else 0xff :: (leBytes 2 id ++ payload)

/-- Writer state for one open day file: entry bytes emitted so far (after
the header), channel registry, next free 8- and 16-bit ids, the last
written timestamp and whether a value entry was already written for it. -/
structure WriterState where
  bytes : List Nat
  chans : List (Nat × Nat × List Nat)
  next8 : Nat
  next16 : Nat
  lastTs : Option Nat
  valueAtTs : Bool
deriving DecidableEq, Repr

/-- Writer state of a freshly created day file. -/
def initWriter : WriterState := ⟨[], [], 0, 0xf0, none, false⟩

/-- Writer-side channel allocation for an `append`: reuse the id of an
already-defined name with matching format, otherwise allocate the smallest
unused 8-bit id (or, when all 240 are taken, the smallest unused 16-bit
id) and emit the channel-definition entry. Returns the channel id, the
definition bytes to emit (empty on reuse), and the updated registry and
allocation cursors. -/
def allocChan (w : WriterState) (name : List Nat) (fid : Nat) :
    Option (Nat × List Nat × List (Nat × Nat × List Nat) × Nat × Nat) :=
  match lookupName w.chans name with
  | some (id, fid0) =>
    if fid0 = fid then some (id, [], w.chans, w.next8, w.next16) else none
  | none =>
    if w.next8 ≤ 0xef then
      some (w.next8, chanDefBytes w.next8 fid name,
            w.chans ++ [(w.next8, fid, name)], w.next8 + 1, w.next16)
    else if w.next16 ≤ 0xffff then
      some (w.next16, chanDefBytes w.next16 fid name,
            w.chans ++ [(w.next16, fid, name)], w.next8, w.next16 + 1)
    else none

/-- Whether the writer can encode the step from `lastTs` to `ts` as a time
entry: always for the absolute form, and only when the forward delta fits
the widest (32-bit) relative field. -/
def deltaOkB (lastTs : Option Nat) (ts : Nat) : Bool :=
  match lastTs with
  | none => true
  | some l => decide (ts < l) || decide (ts - l ≤ 0xffffffff)

/-- One `append(name, format_id, timestamp_ms, value)` on the writer.
Fails (`none`) on unrepresentable inputs: unknown format, value not fitting
the format, mismatched format for an existing name, name longer than 255
bytes, timestamp not fitting an unsigned 64-bit field, a forward delta not
fitting the widest relative entry, or channel-id space exhausted. -/
def writerAppend (w : WriterState) (a : Append) : Option WriterState :=
  if a.ts < 2 ^ 64 ∧ a.name.length ≤ 0xff then
    match encodePayload a.fid a.val with
    | none => none
    | some payload =>
      match allocChan w a.name a.fid with
      | none => none
      | some (id, defB, chans2, n8, n16) =>
        if deltaOkB w.lastTs a.ts then
          some { bytes := w.bytes ++ defB ++ timeEntryBytes w.lastTs w.valueAtTs a.ts
                            ++ valueEntryBytes id payload,
                 chans := chans2, next8 := n8, next16 := n16,
                 lastTs := some a.ts, valueAtTs := true }
        else none
  else none

/-- Fold a sequence of appends over the writer. -/
def writeEntries : WriterState → List Append → Option WriterState
  | w, [] => some w
  | w, a :: rest =>
    match writerAppend w a with
    | none => none
    | some w2 => writeEntries w2 rest

/-- The bytes of the (unfinalized) day file produced by a sequence of
appends on a fresh file: header followed by the emitted entries. -/
def writeFile (as : List Append) : Option (List Nat) :=
  (writeEntries initWriter as).map (fun w => header ++ w.bytes)

/-- The record stream projections used by the claims. -/
def valueTsOf : List Record → List Nat
  | [] => []
  | .value _ _ ts _ :: r => ts :: valueTsOf r
  | .chanDef _ _ _ :: r => valueTsOf r
  | .timeSet _ :: r => valueTsOf r
  | .eof :: r => valueTsOf r

/-- Channel-definition entries of a record stream, in order of appearance. -/
def chanDefsOf : List Record → List (Nat × Nat × List Nat)
  | [] => []
  | .chanDef id fid nm :: r => (id, fid, nm) :: chanDefsOf r
  | .value _ _ _ _ :: r => chanDefsOf r
  | .timeSet _ :: r => chanDefsOf r
  | .eof :: r => chanDefsOf r

/-- Value records of a record stream as `(name, timestamp, value, decimals)`
tuples — the shape the query layer reports. -/
def valueRecordsOf : List Record → List (List Nat × Nat × Value × Nat)
  | [] => []
  | .value nm fid ts v :: r => (nm, ts, v, decimalsOfFormat fid) :: valueRecordsOf r
  | .chanDef _ _ _ :: r => valueRecordsOf r
  | .timeSet _ :: r => valueRecordsOf r
  | .eof :: r => valueRecordsOf r

/-! ## Dashboard frontend helpers (src/web/app.js and src/unnamed/part_001
.. part_003) -/

/-- A chart point as handed to breakLongGaps: a `[timestamp, value]` array.
The timestamp is `none` when JavaScript Number conversion of the first
element is not finite; the value is `none` for null (as in the inserted gap
markers). -/
structure ChartPoint where
  ts : Option ℚ
  v : Option ℚ
deriving DecidableEq, Repr

/-- Loop body of breakLongGaps: walk consecutive pairs, inserting a
`[prevTs + 1, null]` marker before the current point whenever both
timestamps are finite and at least `gapMs` apart. -/
def breakLongGapsAux (gapMs : ℚ) : ChartPoint → List ChartPoint → List ChartPoint
  | _, [] => []
  | prev, curr :: rest =>
    (match prev.ts, curr.ts with
     | some pt, some ct =>
       if gapMs ≤ ct - pt then [⟨some (pt + 1), none⟩, curr] else [curr]
     | _, _ => [curr]) ++ breakLongGapsAux gapMs curr rest

/-- breakLongGaps from the dashboard frontends: arrays of length at most one
are returned unchanged; otherwise the first point is kept and every
consecutive pair at least `gapMs` apart gets a null marker between them. -/
def breakLongGaps (points : List ChartPoint) (gapMs : ℚ) : List ChartPoint :=
  match points with
  | [] => []
  | [p] => [p]
  | p :: rest => p :: breakLongGapsAux gapMs p rest

/-- The gap threshold the charts pass to breakLongGaps (one hour in
milliseconds, at the refreshChart call sites). -/
def chartGapMs : ℚ := 3600000

/-- The claim's reading of gap breaking, written directly from its words:
the input points in their original order, with exactly one marker
`[prevTs + 1, null]` inserted between each consecutive pair whose
timestamps are both finite and differ by at least `gapMs`, and nothing
else. -/
def gapSpecInsert (gapMs : ℚ) : List ChartPoint → List ChartPoint
  | [] => []
  | [p] => [p]
  | p :: q :: rest =>
    p ::
      ((match p.ts, q.ts with
        | some pt, some ct => if gapMs ≤ ct - pt then [⟨some (pt + 1), none⟩] else []
        | _, _ => []) ++ gapSpecInsert gapMs (q :: rest))

/-- Size bound of the dashboard console buffer (src/web/app.js line 34). -/
def maxConsoleLines : Nat := 3000

/-- Buffer update performed by appendConsoleLine (src/web/app.js lines
59-68): push the formatted line, then splice off the oldest entries when
the bound is exceeded. -/
def appendConsoleLine (buf : List String) (line : String) : List String :=
  let b := buf ++ [line]
  if maxConsoleLines < b.length then b.drop (b.length - maxConsoleLines) else b

/-- normalizeDecimalPlaces from the dashboard frontend (src/unnamed/part_003
lines 439-444). The argument is the result of JavaScript Number conversion
of the input, with `none` for a non-finite result (NaN from a missing or
non-numeric field, or an infinity). -/
def normalizeDecimalPlaces : Option ℚ → Int
  | none => 3
  | some n => if n < 0 then 3 else if 12 < n then 12 else ⌊n⌋

/-! ## Query facade (spec section 4.7)

Modelled from the spec: the query facade (get_events and get_stats) of the
TimeSeriesDB engine is not among the repository source files (only its web
callers are, in src/web/app.js and src/unnamed/part_003); the definitions
below follow the spec's contract for both operations over the sample
stream already assembled for one channel and window. -/

/-- One decoded sample of a numeric channel as seen by get_events:
timestamp, numeric value and the format id it came from. -/
structure EvSample where
  ts : Nat
  q : ℚ
  fid : Nat
deriving DecidableEq, Repr

/-- One point of a get_events response: either a raw sample
`{timestamp, value}` or a downsampled bucket `{timestamp, avg, min, max}`. -/
inductive EvPoint where
  | raw (ts : Nat) (v : ℚ)
  | bucket (ts : Nat) (avg mn mx : ℚ)
deriving DecidableEq, Repr

/-- Bucket index of a timestamp for uniform bucketing of `[startMs, endMs]`
into `n` buckets. -/
def bucketIdx (startMs endMs n ts : Nat) : Nat :=
  min (n - 1) ((ts - startMs) * n / (endMs + 1 - startMs))

/-- Modelled from the spec: `get_events(name, window, max_events)` over the
matching samples. Samples in the window are returned raw unless their
count exceeds `max_events`, in which case the window is bucketed uniformly
and each nonempty bucket is reported as min/avg/max, with the downsampled
flag set; the reported decimal places are the maximum display hint over
the contributing format ids. -/
def getEvents (samples : List EvSample) (startMs endMs maxEvents : Nat) :
    List EvPoint × Bool × Nat :=
  let win := samples.filter (fun x => decide (startMs ≤ x.ts ∧ x.ts ≤ endMs))
  let decs := (win.map (fun x => decimalsOfFormat x.fid)).foldr max 0
  if win.length ≤ maxEvents then
    (win.map (fun x => .raw x.ts x.q), false, decs)
  else
    let n := max 1 maxEvents
    let pts := (List.range n).filterMap (fun i =>
      match win.filter (fun x => decide (bucketIdx startMs endMs n x.ts = i)) with
      | [] => none
      | m :: ms =>
        let qs := (m :: ms).map (fun x => x.q)
        some (.bucket (startMs + i * (endMs + 1 - startMs) / n)
              (qs.foldr (· + ·) 0 / (m :: ms).length)
              (qs.foldr min m.q)
              (qs.foldr max m.q)))
    (pts, true, decs)

/-- One sample of a channel as seen by get_stats (the value may be a
string for string channels). -/
structure StatSample where
  ts : Nat
  val : Value
deriving DecidableEq, Repr

/-- Numeric view of a sample value. -/
def numVal : Value → Option ℚ
  | .num q => some q
  | _ => none

/-- Modelled from the spec: `get_stats(name, window)` over the matching
samples, given the current wall clock `nowMs`. Returns
`(count, current_value, max_value)`: the count of samples in the window,
the last sample whose timestamp is at most the window end and within 60
seconds of now (absent otherwise), and the maximum numeric value among
samples in the window (absent when there is none, in particular for
string channels). -/
def getStats (samples : List StatSample) (startMs endMs nowMs : Nat) :
    Nat × Option Value × Option ℚ :=
  let win := samples.filter (fun x => decide (startMs ≤ x.ts ∧ x.ts ≤ endMs))
  let fresh := samples.filter (fun x => decide (x.ts ≤ endMs ∧ nowMs ≤ x.ts + 60000))
  let nums := win.filterMap (fun x => numVal x.val)
  (win.length, (fresh.getLast?).map (fun x => x.val),
   match nums with
   | [] => none
   | q :: qs => some (qs.foldr max q))

/-! ## Lemmas on the primitive codec -/

@[simp]
theorem leVal_nil : leVal [] = 0 := rfl

@[simp]
theorem leVal_cons (b : Nat) (bs : List Nat) : leVal (b :: bs) = b + 256 * leVal bs := rfl

@[simp]
theorem leBytes_length (w v : Nat) : (leBytes w v).length = w := by
  induction w generalizing v with
  | zero => rfl
  | succ w ih => simp [leBytes, ih]

theorem leVal_leBytes (w v : Nat) : leVal (leBytes w v) = v % 2 ^ (8 * w) := by
  induction w generalizing v with
  | zero => simp [leBytes, Nat.mod_one]
  | succ w ih =>
    have h : (2 : Nat) ^ (8 * (w + 1)) = 256 * 2 ^ (8 * w) := by ring
    rw [leBytes, leVal_cons, ih, h, Nat.mod_mul]

theorem leVal_leBytes_of_lt {w v : Nat} (h : v < 2 ^ (8 * w)) :
    leVal (leBytes w v) = v := by
  rw [leVal_leBytes, Nat.mod_eq_of_lt h]

theorem castPow_eq (n : Nat) : ((2 ^ n : Nat) : Int) = (2 : Int) ^ n := by
  push_cast
  ring

theorem toSigned_twos {w : Nat} (x : Int) (hw : 1 ≤ w)
    (h1 : -(2 ^ (8 * w - 1)) ≤ x) (h2 : x < 2 ^ (8 * w - 1)) :
    toSigned w (twos w x) = x := by
  have hsplit : 8 * w - 1 + 1 = 8 * w := by omega
  have hpow := pow_succ (2 : Int) (8 * w - 1)
  rw [hsplit] at hpow
  have hpos1 : (0 : Int) < 2 ^ (8 * w - 1) := by positivity
  have hcast1 := castPow_eq (8 * w - 1)
  have hxmod : x % (2 ^ (8 * w) : Int) = if 0 ≤ x then x else x + 2 ^ (8 * w) := by
    split
    case isTrue h0 =>
      exact Int.emod_eq_of_lt h0 (by linarith)
    case isFalse h0 =>
      have he : (x + 2 ^ (8 * w) * 1) % (2 ^ (8 * w) : Int) = x % (2 ^ (8 * w) : Int) :=
        Int.add_mul_emod_self_left x (2 ^ (8 * w)) 1
      have h0' : 0 ≤ x + 2 ^ (8 * w) := by linarith
      have hlt' : x + 2 ^ (8 * w) < 2 ^ (8 * w) := by linarith
      calc x % (2 ^ (8 * w) : Int)
      _ = (x + 2 ^ (8 * w) * 1) % (2 ^ (8 * w) : Int) := he.symm
      _ = x + 2 ^ (8 * w) := by
            rw [mul_one]
            exact Int.emod_eq_of_lt h0' hlt'
  have htwos : twos w x = (if 0 ≤ x then x else x + 2 ^ (8 * w)).toNat := by
    unfold twos
    rw [hxmod]
  rw [htwos]
  by_cases h0 : 0 ≤ x
  case pos =>
    rw [if_pos h0]
    have hlt : x.toNat < 2 ^ (8 * w - 1) := by omega
    unfold toSigned
    rw [if_pos hlt]
    exact Int.toNat_of_nonneg h0
  case neg =>
    rw [if_neg h0]
    have h0' : 0 ≤ x + 2 ^ (8 * w) := by linarith
    have hge' : (2 : Int) ^ (8 * w - 1) ≤ x + 2 ^ (8 * w) := by linarith
    have hge : ¬ (x + 2 ^ (8 * w)).toNat < 2 ^ (8 * w - 1) := by omega
    unfold toSigned
    rw [if_neg hge]
    have hv : ((x + 2 ^ (8 * w)).toNat : Int) = x + 2 ^ (8 * w) := Int.toNat_of_nonneg h0'
    rw [hv]
    ring

theorem twos_lt (w : Nat) (x : Int) : twos w x < 2 ^ (8 * w) := by
  unfold twos
  have hpos : (0 : Int) < 2 ^ (8 * w) := by positivity
  have h1 := Int.emod_lt_of_pos x (b := 2 ^ (8 * w)) hpos
  have h2 := Int.emod_nonneg x (b := 2 ^ (8 * w)) (by omega)
  have hcast := castPow_eq (8 * w)
  omega

/-! ## Lemmas on stream reads -/

theorem readN_eq_ok {w : Nat} {bs : List Nat} {v : Nat} {r : List Nat} :
    readN w bs = .ok (v, r) ↔ w ≤ bs.length ∧ v = leVal (bs.take w) ∧ r = bs.drop w := by
  unfold readN
  split
  case isTrue h =>
    simp only [Except.ok.injEq, Prod.mk.injEq]
    constructor
    · rintro ⟨h1, h2⟩
      exact ⟨h, h1.symm, h2.symm⟩
    · rintro ⟨-, h1, h2⟩
      exact ⟨h1.symm, h2.symm⟩
  case isFalse h =>
    simp only [reduceCtorEq, false_iff, not_and]
    intro hc
    omega

theorem readN_short {w : Nat} {bs : List Nat} (h : bs.length < w) :
    readN w bs = .error .ShortRead := by
  unfold readN
  rw [if_neg (by omega)]

theorem readN_append {w : Nat} {bs t : List Nat} (h : w ≤ bs.length) :
    readN w (bs ++ t) = .ok (leVal (bs.take w), bs.drop w ++ t) := by
  unfold readN
  rw [if_pos (by simp; omega), List.take_append_of_le_length h,
      List.drop_append_of_le_length h]

theorem readB_eq_ok {w : Nat} {bs : List Nat} {v r : List Nat} :
    readB w bs = .ok (v, r) ↔ w ≤ bs.length ∧ v = bs.take w ∧ r = bs.drop w := by
  unfold readB
  split
  case isTrue h =>
    simp only [Except.ok.injEq, Prod.mk.injEq]
    constructor
    · rintro ⟨h1, h2⟩
      exact ⟨h, h1.symm, h2.symm⟩
    · rintro ⟨-, h1, h2⟩
      exact ⟨h1.symm, h2.symm⟩
  case isFalse h =>
    simp only [reduceCtorEq, false_iff, not_and]
    intro hc
    omega

theorem readB_short {w : Nat} {bs : List Nat} (h : bs.length < w) :
    readB w bs = .error .ShortRead := by
  unfold readB
  rw [if_neg (by omega)]

theorem readB_append {w : Nat} {bs t : List Nat} (h : w ≤ bs.length) :
    readB w (bs ++ t) = .ok (bs.take w, bs.drop w ++ t) := by
  unfold readB
  rw [if_pos (by simp; omega), List.take_append_of_le_length h,
      List.drop_append_of_le_length h]

theorem readN_take_append {w n : Nat} {pl : List Nat} (hwn : w ≤ n) (hn : n ≤ pl.length)
    (t : List Nat) :
    readN w (pl.take n ++ t) = .ok (leVal (pl.take w), (pl.drop w).take (n - w) ++ t) := by
  have hlen : (pl.take n).length = n := by
    simp [List.length_take]
    omega
  rw [readN_append (by omega), List.take_take, min_eq_left hwn, List.drop_take]

theorem readB_take_append {w n : Nat} {pl : List Nat} (hwn : w ≤ n) (hn : n ≤ pl.length)
    (t : List Nat) :
    readB w (pl.take n ++ t) = .ok (pl.take w, (pl.drop w).take (n - w) ++ t) := by
  have hlen : (pl.take n).length = n := by
    simp [List.length_take]
    omega
  rw [readB_append (by omega), List.take_take, min_eq_left hwn, List.drop_take]

theorem readN_take_short {w j : Nat} {pl : List Nat} (hj : j < w) :
    readN w (pl.take j) = .error .ShortRead := by
  apply readN_short
  have := List.length_take j pl
  omega

/-! ## Evaluation lemmas for the payload decoder -/

theorem decodePayload_none {fid : Nat} (hk : payloadKind fid = none) (bs : List Nat) :
    decodePayload fid bs = .error .UnknownFormat := by
  unfold decodePayload
  rw [hk]

theorem decodePayload_f32 {fid : Nat} (hk : payloadKind fid = some .float32) (bs : List Nat) :
    decodePayload fid bs =
      match readN 4 bs with
      | .error e => .error e
      | .ok (v0, rest) => .ok (.f32 v0, rest) := by
  unfold decodePayload
  rw [hk]

theorem decodePayload_f64 {fid : Nat} (hk : payloadKind fid = some .float64) (bs : List Nat) :
    decodePayload fid bs =
      match readN 8 bs with
      | .error e => .error e
      | .ok (v0, rest) => .ok (.f64 v0, rest) := by
  unfold decodePayload
  rw [hk]

theorem decodePayload_str {fid lw : Nat} (hk : payloadKind fid = some (.string lw))
    (bs : List Nat) :
    decodePayload fid bs =
      match readN lw bs with
      | .error e => .error e
      | .ok (len, rest) =>
        if len ≤ rest.length then .ok (.str (rest.take len), rest.drop len)
        else .error .StringTooLong := by
  unfold decodePayload
  rw [hk]

theorem decodePayload_str_ok {fid lw : Nat} (hk : payloadKind fid = some (.string lw))
    {bs rest1 : List Nat} {len : Nat} (hr : readN lw bs = .ok (len, rest1)) :
    decodePayload fid bs =
      if len ≤ rest1.length then .ok (.str (rest1.take len), rest1.drop len)
      else .error .StringTooLong := by
  rw [decodePayload_str hk, hr]

theorem decodePayload_int {fid w nib : Nat} {sg : Bool}
    (hk : payloadKind fid = some (.intK w sg nib)) (bs : List Nat) :
    decodePayload fid bs =
      match readN w bs with
      | .error e => .error e
      | .ok (v0, rest) =>
        let x : Int := if sg then toSigned w v0 else (v0 : Int)
        .ok (.num ((x : ℚ) / (10 ^ nib : ℚ)), rest) := by
  unfold decodePayload
  rw [hk]

/-- The payload decoder is a consuming parser: a successful parse consumes a
determined number `n` of bytes, succeeds identically on the first `n` bytes
followed by anything, and fails with a truncation-class error on every
strictly shorter prefix of its consumed bytes. -/
theorem decodePayload_consume {fid : Nat} {pl : List Nat} {v : Value} {rest : List Nat}
    (h : decodePayload fid pl = .ok (v, rest)) :
    ∃ n, n ≤ pl.length ∧ rest = pl.drop n ∧
      (∀ t, decodePayload fid (pl.take n ++ t) = .ok (v, t)) ∧
      (∀ j, j < n → ∃ e, decodePayload fid (pl.take j) = .error e ∧ truncClass e = true) := by
  cases hk : payloadKind fid with
  | none =>
    rw [decodePayload_none hk] at h
    cases h
  | some k =>
    cases k with
    | float32 =>
      rw [decodePayload_f32 hk] at h
      cases hr : readN 4 pl with
      | error e => rw [hr] at h; cases h
      | ok p =>
        obtain ⟨v0, rest0⟩ := p
        rw [hr] at h
        simp only [Except.ok.injEq, Prod.mk.injEq] at h
        obtain ⟨hv, hrest⟩ := h
        obtain ⟨hle, hv0, hrest0⟩ := readN_eq_ok.mp hr
        refine ⟨4, hle, by rw [← hrest, hrest0], ?_, ?_⟩
        · intro t
          rw [decodePayload_f32 hk, readN_take_append le_rfl hle t]
          simp [← hv, hv0]
        · intro j hj
          exact ⟨.ShortRead, by rw [decodePayload_f32 hk, readN_take_short hj], rfl⟩
    | float64 =>
      rw [decodePayload_f64 hk] at h
      cases hr : readN 8 pl with
      | error e => rw [hr] at h; cases h
      | ok p =>
        obtain ⟨v0, rest0⟩ := p
        rw [hr] at h
        simp only [Except.ok.injEq, Prod.mk.injEq] at h
        obtain ⟨hv, hrest⟩ := h
        obtain ⟨hle, hv0, hrest0⟩ := readN_eq_ok.mp hr
        refine ⟨8, hle, by rw [← hrest, hrest0], ?_, ?_⟩
        · intro t
          rw [decodePayload_f64 hk, readN_take_append le_rfl hle t]
          simp [← hv, hv0]
        · intro j hj
          exact ⟨.ShortRead, by rw [decodePayload_f64 hk, readN_take_short hj], rfl⟩
    | intK w sg nib =>
      rw [decodePayload_int hk] at h
      cases hr : readN w pl with
      | error e => rw [hr] at h; cases h
      | ok p =>
        obtain ⟨v0, rest0⟩ := p
        rw [hr] at h
        simp only [Except.ok.injEq, Prod.mk.injEq] at h
        obtain ⟨hv, hrest⟩ := h
        obtain ⟨hle, hv0, hrest0⟩ := readN_eq_ok.mp hr
        refine ⟨w, hle, by rw [← hrest, hrest0], ?_, ?_⟩
        · intro t
          rw [decodePayload_int hk, readN_take_append le_rfl hle t]
          simp [← hv, hv0]
        · intro j hj
          exact ⟨.ShortRead, by rw [decodePayload_int hk, readN_take_short hj], rfl⟩
    | string lw =>
      rw [decodePayload_str hk] at h
      cases hr : readN lw pl with
      | error e => rw [hr] at h; cases h
      | ok p =>
        obtain ⟨len, rest1⟩ := p
        rw [hr] at h
        have h2 : (if len ≤ rest1.length
            then (Except.ok (Value.str (rest1.take len), rest1.drop len) :
                   Except FormatError (Value × List Nat))
            else Except.error FormatError.StringTooLong) = Except.ok (v, rest) := h
        obtain ⟨hle, hlen, hrest1⟩ := readN_eq_ok.mp hr
        by_cases hfit : len ≤ rest1.length
        case neg =>
          rw [if_neg hfit] at h2
          cases h2
        case pos =>
          rw [if_pos hfit] at h2
          simp only [Except.ok.injEq, Prod.mk.injEq] at h2
          obtain ⟨hv, hrest⟩ := h2
          have hr1len : rest1.length = pl.length - lw := by
            rw [hrest1, List.length_drop]
          refine ⟨lw + len, by omega, ?_, ?_, ?_⟩
          · rw [← hrest, hrest1, List.drop_drop]
          · intro t
            rw [decodePayload_str hk, readN_take_append (by omega) (by omega) t]
            have hside : (lw + len) - lw = len := by omega
            rw [hside, ← hlen, ← hrest1]
            have htklen : (rest1.take len).length = len := by
              simp [List.length_take]
              omega
            have h1 : len ≤ (rest1.take len ++ t).length := by
              simp [htklen]
            simp only [if_pos h1]
            rw [List.take_append_of_le_length (by omega),
                List.drop_append_of_le_length (by omega)]
            have h2 : (rest1.take len).take len = rest1.take len := by
              rw [List.take_take, min_self]
            have h3 : (rest1.take len).drop len = [] := by
              apply List.drop_eq_nil_of_le
              omega
            rw [h2, h3, List.nil_append, ← hv]
          · intro j hj
            by_cases hjlw : j < lw
            case pos =>
              exact ⟨.ShortRead, by rw [decodePayload_str hk, readN_take_short hjlw], rfl⟩
            case neg =>
              refine ⟨.StringTooLong, ?_, rfl⟩
              have hjpl : j ≤ pl.length := by omega
              have hre := readN_take_append (by omega : lw ≤ j) hjpl []
              simp only [List.append_nil] at hre
              rw [← hlen] at hre
              rw [decodePayload_str_ok hk hre]
              have hlen2 : ((pl.drop lw).take (j - lw)).length = j - lw := by
                simp [List.length_take, List.length_drop]
                omega
              rw [if_neg (by rw [hlen2]; omega)]

/-! ## Evaluation lemmas for the entry decoder -/

theorem readN_one {b : Nat} {bs : List Nat} : readN 1 (b :: bs) = .ok (b, bs) := by
  unfold readN
  rw [if_pos (by simp)]
  simp [leVal]

theorem readN_two {a b : Nat} {bs : List Nat} :
    readN 2 (a :: b :: bs) = .ok (a + 256 * b, bs) := by
  unfold readN
  rw [if_pos (by simp)]
  simp [leVal]

theorem de_nil {st : DecState} : decodeEntry st [] = .error .ShortRead := rfl

theorem de_val8 {st : DecState} {t : Nat} {r : List Nat} (h : t ≤ 0xef) :
    decodeEntry st (t :: r) =
      match st.currentTimestamp with
      | none => .error .MissingTimestamp
      | some ts =>
        match lookupChan st.channels t with
        | none => .error .UnknownChannel
        | some (fid, nm) =>
          match decodePayload fid r with
          | .error e => .error e
          | .ok (v, rest) => .ok (.value nm fid ts v, st, rest) := by
  simp only [decodeEntry]
  rw [if_pos h]

theorem de_esc {st : DecState} {r : List Nat} :
    decodeEntry st (0xff :: r) =
      match readN 2 r with
      | .error e => .error e
      | .ok (cid, r2) =>
        if cid < 0xf0 then .error .InvalidChannelIdRange
        else
          match st.currentTimestamp with
          | none => .error .MissingTimestamp
          | some ts =>
            match lookupChan st.channels cid with
            | none => .error .UnknownChannel
            | some (fid, nm) =>
              match decodePayload fid r2 with
              | .error e => .error e
              | .ok (v, rest) => .ok (.value nm fid ts v, st, rest) := by
  simp only [decodeEntry]
  norm_num

theorem de_abs {st : DecState} {r : List Nat} :
    decodeEntry st (0xf0 :: r) =
      match readN 8 r with
      | .error e => .error e
      | .ok (ms, rest) => .ok (.timeSet ms, ⟨some ms, st.channels⟩, rest) := by
  simp only [decodeEntry]
  norm_num

theorem de_rel {st : DecState} {r : List Nat} {k : Nat} (h1 : 1 ≤ k) (h2 : k ≤ 4) :
    decodeEntry st ((0xf0 + k) :: r) =
      match readN k r with
      | .error e => .error e
      | .ok (d, rest) =>
        match st.currentTimestamp with
        | none => .error .MissingTimestamp
        | some ts => .ok (.timeSet (ts + d), ⟨some (ts + d), st.channels⟩, rest) := by
  simp only [decodeEntry]
  rw [if_neg (by omega), if_neg (by omega), if_neg (by omega), if_pos (by omega),
      Nat.add_sub_cancel_left]

theorem de_def8 {st : DecState} {r : List Nat} :
    decodeEntry st (0xf5 :: r) =
      match readN 1 r with
      | .error e => .error e
      | .ok (id, r2) =>
        if 0xef < id then .error .InvalidChannelIdRange
        else
          match lookupChan st.channels id with
          | some _ => .error .DuplicateChannel
          | none =>
            match readN 1 r2 with
            | .error e => .error e
            | .ok (fid, r3) =>
              match readN 1 r3 with
              | .error e => .error e
              | .ok (nlen, r4) =>
                match readB nlen r4 with
                | .error e => .error e
                | .ok (nm, rest) =>
                  .ok (.chanDef id fid nm,
                       ⟨st.currentTimestamp, st.channels ++ [(id, fid, nm)]⟩, rest) := by
  simp only [decodeEntry]
  norm_num

theorem de_def16 {st : DecState} {r : List Nat} :
    decodeEntry st (0xf6 :: r) =
      match readN 2 r with
      | .error e => .error e
      | .ok (id, r2) =>
        if id < 0xf0 then .error .InvalidChannelIdRange
        else
          match lookupChan st.channels id with
          | some _ => .error .DuplicateChannel
          | none =>
            match readN 1 r2 with
            | .error e => .error e
            | .ok (fid, r3) =>
              match readN 1 r3 with
              | .error e => .error e
              | .ok (nlen, r4) =>
                match readB nlen r4 with
                | .error e => .error e
                | .ok (nm, rest) =>
                  .ok (.chanDef id fid nm,
                       ⟨st.currentTimestamp, st.channels ++ [(id, fid, nm)]⟩, rest) := by
  simp only [decodeEntry]
  norm_num

theorem de_eof {st : DecState} {r : List Nat} :
    decodeEntry st (0xfe :: r) =
      (if r = [] then .ok (.eof, st, []) else .error .Truncated) := by
  simp only [decodeEntry]
  norm_num

theorem de_unknown {st : DecState} {t : Nat} {r : List Nat}
    (h8 : ¬ t ≤ 0xef) (hff : t ≠ 0xff) (hf0 : t ≠ 0xf0) (hrel : ¬ t ≤ 0xf4)
    (hf5 : t ≠ 0xf5) (hf6 : t ≠ 0xf6) (hfe : t ≠ 0xfe) :
    decodeEntry st (t :: r) = .error .UnknownEntryType := by
  simp only [decodeEntry]
  rw [if_neg h8, if_neg hff, if_neg hf0, if_neg hrel, if_neg hf5, if_neg hf6, if_neg hfe]

/-- Conclusion of the consuming-parser property for one decoded entry:
`n` bytes are consumed, the entry decodes identically from its own bytes
followed by anything, and every shorter cut fails with a truncation-class
error. -/
def EntryConsume (st : DecState) (bs : List Nat) (rec : Record) (st2 : DecState)
    (rest : List Nat) : Prop :=
  ∃ n, 1 ≤ n ∧ n ≤ bs.length ∧ rest = bs.drop n ∧
    decodeEntry st (bs.take n) = .ok (rec, st2, []) ∧
    (rec ≠ .eof → ∀ t, decodeEntry st (bs.take n ++ t) = .ok (rec, st2, t)) ∧
    (∀ j, j < n → ∃ e, decodeEntry st (bs.take j) = .error e ∧ truncClass e = true) ∧
    (rec = .eof → rest = [])

theorem deC_val8 {st : DecState} {t : Nat} {r : List Nat} {rec : Record} {st2 : DecState}
    {rest : List Nat} (h8 : t ≤ 0xef)
    (h : decodeEntry st (t :: r) = .ok (rec, st2, rest)) :
    EntryConsume st (t :: r) rec st2 rest := by
  rw [de_val8 h8] at h
  cases hts : st.currentTimestamp with
  | none => simp only [hts] at h; cases h
  | some ts =>
    simp only [hts] at h
    cases hlc : lookupChan st.channels t with
    | none => simp only [hlc] at h; cases h
    | some p =>
      obtain ⟨fid, nm⟩ := p
      simp only [hlc] at h
      cases hp : decodePayload fid r with
      | error e => simp only [hp] at h; cases h
      | ok q =>
        obtain ⟨v, rest0⟩ := q
        simp only [hp, Except.ok.injEq, Prod.mk.injEq] at h
        obtain ⟨hrec, hst2, hrest⟩ := h
        obtain ⟨np, hnp, hrest0, hext, htr⟩ := decodePayload_consume hp
        refine ⟨np + 1, by omega, by simp only [List.length_cons]; omega, ?_, ?_, ?_, ?_,
          fun he => by rw [← hrec] at he; cases he⟩
        · rw [← hrest, hrest0, List.drop_succ_cons]
        · rw [List.take_succ_cons, de_val8 h8]
          have he0 : decodePayload fid (r.take np) = .ok (v, []) := by
            have := hext []
            rwa [List.append_nil] at this
          simp only [hts, hlc, he0, ← hrec, ← hst2]
        · intro _ tl
          rw [List.take_succ_cons, List.cons_append, de_val8 h8]
          simp only [hts, hlc, hext tl, ← hrec, ← hst2]
        · intro j hj
          match j with
          | 0 =>
            refine ⟨.ShortRead, ?_, rfl⟩
            rw [List.take_zero, de_nil]
          | j' + 1 =>
            obtain ⟨e, he, hc⟩ := htr j' (by omega)
            refine ⟨e, ?_, hc⟩
            rw [List.take_succ_cons, de_val8 h8]
            simp only [hts, hlc, he]

theorem deC_esc {st : DecState} {r : List Nat} {rec : Record} {st2 : DecState}
    {rest : List Nat}
    (h : decodeEntry st (0xff :: r) = .ok (rec, st2, rest)) :
    EntryConsume st (0xff :: r) rec st2 rest := by
  rw [de_esc] at h
  cases hr2 : readN 2 r with
  | error e => simp only [hr2] at h; cases h
  | ok p =>
    obtain ⟨cid, r2⟩ := p
    simp only [hr2] at h
    obtain ⟨hle2, hcid, hr2v⟩ := readN_eq_ok.mp hr2
    by_cases hrange : cid < 0xf0
    case pos =>
      rw [if_pos hrange] at h
      cases h
    case neg =>
      rw [if_neg hrange] at h
      cases hts : st.currentTimestamp with
      | none => simp only [hts] at h; cases h
      | some ts =>
        simp only [hts] at h
        cases hlc : lookupChan st.channels cid with
        | none => simp only [hlc] at h; cases h
        | some p2 =>
          obtain ⟨fid, nm⟩ := p2
          simp only [hlc] at h
          cases hp : decodePayload fid r2 with
          | error e => simp only [hp] at h; cases h
          | ok q =>
            obtain ⟨v, rest0⟩ := q
            simp only [hp, Except.ok.injEq, Prod.mk.injEq] at h
            obtain ⟨hrec, hst2, hrest⟩ := h
            obtain ⟨np, hnp, hrest0, hext, htr⟩ := decodePayload_consume hp
            have hr2len : r2.length = r.length - 2 := by
              rw [hr2v, List.length_drop]
            have hnp2 : np + 2 ≤ r.length := by omega
            refine ⟨np + 3, by omega, by simp only [List.length_cons]; omega, ?_, ?_, ?_, ?_,
              fun he => by rw [← hrec] at he; cases he⟩
            · rw [← hrest, hrest0, hr2v, List.drop_drop, List.drop_succ_cons, Nat.add_comm]
            · rw [show ((0xff : Nat) :: r).take (np + 3) = 0xff :: r.take (np + 2) from
                List.take_succ_cons, de_esc]
              have hrd := readN_take_append (by omega : 2 ≤ np + 2) hnp2 []
              simp only [List.append_nil] at hrd
              have he0 : decodePayload fid (r2.take np) = .ok (v, []) := by
                have := hext []
                rwa [List.append_nil] at this
              have hside : (r.drop 2).take (np + 2 - 2) = r2.take np := by
                rw [hr2v, Nat.add_sub_cancel]
              rw [hside] at hrd
              simp only [hrd, ← hcid, if_neg hrange, hts, hlc, he0, ← hrec, ← hst2]
            · intro _ tl
              rw [show ((0xff : Nat) :: r).take (np + 3) = 0xff :: r.take (np + 2) from
                List.take_succ_cons, List.cons_append, de_esc]
              have hrd := readN_take_append (by omega : 2 ≤ np + 2) hnp2 tl
              have hside : (r.drop 2).take (np + 2 - 2) = r2.take np := by
                rw [hr2v, Nat.add_sub_cancel]
              rw [hside] at hrd
              simp only [hrd, ← hcid, if_neg hrange, hts, hlc, hext tl, ← hrec, ← hst2]
            · intro j hj
              match j with
              | 0 =>
                refine ⟨.ShortRead, ?_, rfl⟩
                rw [List.take_zero, de_nil]
              | j' + 1 =>
                rw [List.take_succ_cons, de_esc]
                by_cases hj2 : j' < 2
                case pos =>
                  refine ⟨.ShortRead, ?_, rfl⟩
                  have hs : readN 2 (r.take j') = .error .ShortRead := by
                    apply readN_short
                    have := List.length_take j' r
                    omega
                  simp only [hs]
                case neg =>
                  have hj'le : j' ≤ r.length := by omega
                  have hrd := readN_take_append (by omega : 2 ≤ j') hj'le []
                  simp only [List.append_nil] at hrd
                  obtain ⟨e, he, hc⟩ := htr (j' - 2) (by omega)
                  refine ⟨e, ?_, hc⟩
                  have hside : (r.drop 2).take (j' - 2) = r2.take (j' - 2) := by
                    rw [hr2v]
                  rw [hside] at hrd
                  simp only [hrd, ← hcid, if_neg hrange, hts, hlc, he]

theorem take_cons4 {a b c d : Nat} {l : List Nat} (n : Nat) :
    (a :: b :: c :: d :: l).take (n + 4) = a :: b :: c :: d :: l.take n := rfl

theorem drop_cons4 {a b c d : Nat} {l : List Nat} (n : Nat) :
    (a :: b :: c :: d :: l).drop (n + 4) = l.drop n := rfl

theorem take_cons5 {a b c d e : Nat} {l : List Nat} (n : Nat) :
    (a :: b :: c :: d :: e :: l).take (n + 5) = a :: b :: c :: d :: e :: l.take n := rfl

theorem drop_cons5 {a b c d e : Nat} {l : List Nat} (n : Nat) :
    (a :: b :: c :: d :: e :: l).drop (n + 5) = l.drop n := rfl

theorem deC_abs {st : DecState} {r : List Nat} {rec : Record} {st2 : DecState}
    {rest : List Nat}
    (h : decodeEntry st (0xf0 :: r) = .ok (rec, st2, rest)) :
    EntryConsume st (0xf0 :: r) rec st2 rest := by
  rw [de_abs] at h
  cases hr8 : readN 8 r with
  | error e => simp only [hr8] at h; cases h
  | ok p =>
    obtain ⟨ms, rest0⟩ := p
    simp only [hr8, Except.ok.injEq, Prod.mk.injEq] at h
    obtain ⟨hrec, hst2, hrest⟩ := h
    obtain ⟨hle8, hms, hrest0⟩ := readN_eq_ok.mp hr8
    refine ⟨9, by omega, by simp only [List.length_cons]; omega, ?_, ?_, ?_, ?_,
      fun he => by rw [← hrec] at he; cases he⟩
    · rw [← hrest, hrest0, List.drop_succ_cons]
    · rw [List.take_succ_cons, de_abs]
      have hrd := readN_take_append (le_rfl : 8 ≤ 8) hle8 ([] : List Nat)
      simp only [Nat.sub_self, List.take_zero, List.nil_append, List.append_nil] at hrd
      simp only [hrd, ← hms, ← hrec, ← hst2]
    · intro _ tl
      rw [List.take_succ_cons, List.cons_append, de_abs]
      have hrd := readN_take_append (le_rfl : 8 ≤ 8) hle8 tl
      simp only [Nat.sub_self, List.take_zero, List.nil_append] at hrd
      simp only [hrd, ← hms, ← hrec, ← hst2]
    · intro j hj
      match j with
      | 0 =>
        refine ⟨.ShortRead, ?_, rfl⟩
        rw [List.take_zero, de_nil]
      | j' + 1 =>
        refine ⟨.ShortRead, ?_, rfl⟩
        rw [List.take_succ_cons, de_abs]
        have hs : readN 8 (r.take j') = .error .ShortRead := readN_take_short (by omega)
        simp only [hs]

theorem deC_rel {st : DecState} {r : List Nat} {k : Nat} {rec : Record} {st2 : DecState}
    {rest : List Nat} (h1 : 1 ≤ k) (h2 : k ≤ 4)
    (h : decodeEntry st ((0xf0 + k) :: r) = .ok (rec, st2, rest)) :
    EntryConsume st ((0xf0 + k) :: r) rec st2 rest := by
  rw [de_rel h1 h2] at h
  cases hrk : readN k r with
  | error e => simp only [hrk] at h; cases h
  | ok p =>
    obtain ⟨d, rest0⟩ := p
    simp only [hrk] at h
    cases hts : st.currentTimestamp with
    | none => simp only [hts] at h; cases h
    | some ts =>
      simp only [hts, Except.ok.injEq, Prod.mk.injEq] at h
      obtain ⟨hrec, hst2, hrest⟩ := h
      obtain ⟨hlek, hd, hrest0⟩ := readN_eq_ok.mp hrk
      refine ⟨k + 1, by omega, by simp only [List.length_cons]; omega, ?_, ?_, ?_, ?_,
        fun he => by rw [← hrec] at he; cases he⟩
      · rw [← hrest, hrest0, List.drop_succ_cons]
      · rw [List.take_succ_cons, de_rel h1 h2]
        have hrd := readN_take_append (le_rfl : k ≤ k) hlek ([] : List Nat)
        simp only [Nat.sub_self, List.take_zero, List.nil_append, List.append_nil] at hrd
        simp only [hrd, ← hd, hts, ← hrec, ← hst2]
      · intro _ tl
        rw [List.take_succ_cons, List.cons_append, de_rel h1 h2]
        have hrd := readN_take_append (le_rfl : k ≤ k) hlek tl
        simp only [Nat.sub_self, List.take_zero, List.nil_append] at hrd
        simp only [hrd, ← hd, hts, ← hrec, ← hst2]
      · intro j hj
        match j with
        | 0 =>
          refine ⟨.ShortRead, ?_, rfl⟩
          rw [List.take_zero, de_nil]
        | j' + 1 =>
          refine ⟨.ShortRead, ?_, rfl⟩
          rw [List.take_succ_cons, de_rel h1 h2]
          have hs : readN k (r.take j') = .error .ShortRead := readN_take_short (by omega)
          simp only [hs]

theorem deC_def8 {st : DecState} {r : List Nat} {rec : Record} {st2 : DecState}
    {rest : List Nat}
    (h : decodeEntry st (0xf5 :: r) = .ok (rec, st2, rest)) :
    EntryConsume st (0xf5 :: r) rec st2 rest := by
  rw [de_def8] at h
  match r with
  | [] => simp only [readN_short (by simp : ([] : List Nat).length < 1)] at h; cases h
  | b1 :: r1 =>
    simp only [readN_one] at h
    by_cases hrange : 0xef < b1
    case pos => rw [if_pos hrange] at h; cases h
    case neg =>
      rw [if_neg hrange] at h
      cases hlc : lookupChan st.channels b1 with
      | some p => simp only [hlc] at h; cases h
      | none =>
        simp only [hlc] at h
        match r1 with
        | [] => simp only [readN_short (by simp : ([] : List Nat).length < 1)] at h; cases h
        | b2 :: r2 =>
          simp only [readN_one] at h
          match r2 with
          | [] => simp only [readN_short (by simp : ([] : List Nat).length < 1)] at h; cases h
          | b3 :: r3 =>
            simp only [readN_one] at h
            cases hrb : readB b3 r3 with
            | error e => simp only [hrb] at h; cases h
            | ok p =>
              obtain ⟨nm, rest0⟩ := p
              simp only [hrb, Except.ok.injEq, Prod.mk.injEq] at h
              obtain ⟨hrec, hst2, hrest⟩ := h
              obtain ⟨hleb, hnm, hrest0⟩ := readB_eq_ok.mp hrb
              refine ⟨b3 + 4, by omega,
                by simp only [List.length_cons]; omega, ?_, ?_, ?_, ?_,
                fun he => by rw [← hrec] at he; cases he⟩
              · rw [← hrest, hrest0, drop_cons4]
              · rw [take_cons4, de_def8]
                simp only [readN_one]
                have hrd := readB_take_append (le_rfl : b3 ≤ b3) hleb ([] : List Nat)
                simp only [Nat.sub_self, List.take_zero, List.nil_append,
                  List.append_nil] at hrd
                rw [← hnm] at hrd
                simp only [if_neg hrange, hlc, ← hnm, hrd, ← hrec, ← hst2]
              · intro _ tl
                rw [take_cons4, List.cons_append, List.cons_append, List.cons_append,
                    List.cons_append, de_def8]
                simp only [readN_one]
                have hrd := readB_take_append (le_rfl : b3 ≤ b3) hleb tl
                simp only [Nat.sub_self, List.take_zero, List.nil_append] at hrd
                rw [← hnm] at hrd
                simp only [if_neg hrange, hlc, ← hnm, hrd, ← hrec, ← hst2]
              · intro j hj
                match j with
                | 0 =>
                  refine ⟨.ShortRead, ?_, rfl⟩
                  rw [List.take_zero, de_nil]
                | 1 =>
                  refine ⟨.ShortRead, ?_, rfl⟩
                  rw [show (((0xf5 : Nat)) :: b1 :: b2 :: b3 :: r3).take 1 = [0xf5] from rfl,
                      de_def8]
                  simp only [readN_short (by simp : ([] : List Nat).length < 1)]
                | 2 =>
                  refine ⟨.ShortRead, ?_, rfl⟩
                  rw [show (((0xf5 : Nat)) :: b1 :: b2 :: b3 :: r3).take 2 = [0xf5, b1]
                        from rfl, de_def8]
                  simp only [readN_one, if_neg hrange, hlc,
                    readN_short (by simp : ([] : List Nat).length < 1)]
                | 3 =>
                  refine ⟨.ShortRead, ?_, rfl⟩
                  rw [show (((0xf5 : Nat)) :: b1 :: b2 :: b3 :: r3).take 3 = [0xf5, b1, b2]
                        from rfl, de_def8]
                  simp only [readN_one, if_neg hrange, hlc,
                    readN_short (by simp : ([] : List Nat).length < 1)]
                | j' + 4 =>
                  refine ⟨.ShortRead, ?_, rfl⟩
                  rw [take_cons4, de_def8]
                  simp only [readN_one, if_neg hrange, hlc]
                  have hs : readB b3 (r3.take j') = .error .ShortRead := by
                    apply readB_short
                    have := List.length_take j' r3
                    omega
                  simp only [hs]

theorem deC_def16 {st : DecState} {r : List Nat} {rec : Record} {st2 : DecState}
    {rest : List Nat}
    (h : decodeEntry st (0xf6 :: r) = .ok (rec, st2, rest)) :
    EntryConsume st (0xf6 :: r) rec st2 rest := by
  rw [de_def16] at h
  match r with
  | [] => simp only [readN_short (by simp : ([] : List Nat).length < 2)] at h; cases h
  | [b1] => simp only [readN_short (by simp : [b1].length < 2)] at h; cases h
  | b1 :: b2 :: r2 =>
    simp only [readN_two] at h
    by_cases hrange : b1 + 256 * b2 < 0xf0
    case pos => rw [if_pos hrange] at h; cases h
    case neg =>
      rw [if_neg hrange] at h
      cases hlc : lookupChan st.channels (b1 + 256 * b2) with
      | some p => simp only [hlc] at h; cases h
      | none =>
        simp only [hlc] at h
        match r2 with
        | [] => simp only [readN_short (by simp : ([] : List Nat).length < 1)] at h; cases h
        | b3 :: r3 =>
          simp only [readN_one] at h
          match r3 with
          | [] => simp only [readN_short (by simp : ([] : List Nat).length < 1)] at h; cases h
          | b4 :: r4 =>
            simp only [readN_one] at h
            cases hrb : readB b4 r4 with
            | error e => simp only [hrb] at h; cases h
            | ok p =>
              obtain ⟨nm, rest0⟩ := p
              simp only [hrb, Except.ok.injEq, Prod.mk.injEq] at h
              obtain ⟨hrec, hst2, hrest⟩ := h
              obtain ⟨hleb, hnm, hrest0⟩ := readB_eq_ok.mp hrb
              refine ⟨b4 + 5, by omega,
                by simp only [List.length_cons]; omega, ?_, ?_, ?_, ?_,
                fun he => by rw [← hrec] at he; cases he⟩
              · rw [← hrest, hrest0, drop_cons5]
              · rw [take_cons5, de_def16]
                simp only [readN_two, readN_one]
                have hrd := readB_take_append (le_rfl : b4 ≤ b4) hleb ([] : List Nat)
                simp only [Nat.sub_self, List.take_zero, List.nil_append,
                  List.append_nil] at hrd
                rw [← hnm] at hrd
                simp only [if_neg hrange, hlc, ← hnm, hrd, ← hrec, ← hst2]
              · intro _ tl
                rw [take_cons5, List.cons_append, List.cons_append, List.cons_append,
                    List.cons_append, List.cons_append, de_def16]
                simp only [readN_two, readN_one]
                have hrd := readB_take_append (le_rfl : b4 ≤ b4) hleb tl
                simp only [Nat.sub_self, List.take_zero, List.nil_append] at hrd
                rw [← hnm] at hrd
                simp only [if_neg hrange, hlc, ← hnm, hrd, ← hrec, ← hst2]
              · intro j hj
                match j with
                | 0 =>
                  refine ⟨.ShortRead, ?_, rfl⟩
                  rw [List.take_zero, de_nil]
                | 1 =>
                  refine ⟨.ShortRead, ?_, rfl⟩
                  rw [show (((0xf6 : Nat)) :: b1 :: b2 :: b3 :: b4 :: r4).take 1 = [0xf6]
                        from rfl, de_def16]
                  simp only [readN_short (by simp : ([] : List Nat).length < 2)]
                | 2 =>
                  refine ⟨.ShortRead, ?_, rfl⟩
                  rw [show (((0xf6 : Nat)) :: b1 :: b2 :: b3 :: b4 :: r4).take 2 = [0xf6, b1]
                        from rfl, de_def16]
                  simp only [readN_short (by simp : [b1].length < 2)]
                | 3 =>
                  refine ⟨.ShortRead, ?_, rfl⟩
                  rw [show (((0xf6 : Nat)) :: b1 :: b2 :: b3 :: b4 :: r4).take 3
                        = [0xf6, b1, b2] from rfl, de_def16]
                  simp only [readN_two, if_neg hrange, hlc,
                    readN_short (by simp : ([] : List Nat).length < 1)]
                | 4 =>
                  refine ⟨.ShortRead, ?_, rfl⟩
                  rw [show (((0xf6 : Nat)) :: b1 :: b2 :: b3 :: b4 :: r4).take 4
                        = [0xf6, b1, b2, b3] from rfl, de_def16]
                  simp only [readN_two, if_neg hrange, hlc, readN_one,
                    readN_short (by simp : ([] : List Nat).length < 1)]
                | j' + 5 =>
                  refine ⟨.ShortRead, ?_, rfl⟩
                  rw [take_cons5, de_def16]
                  simp only [readN_two, readN_one, if_neg hrange, hlc]
                  have hs : readB b4 (r4.take j') = .error .ShortRead := by
                    apply readB_short
                    have := List.length_take j' r4
                    omega
                  simp only [hs]

theorem deC_eof {st : DecState} {r : List Nat} {rec : Record} {st2 : DecState}
    {rest : List Nat}
    (h : decodeEntry st (0xfe :: r) = .ok (rec, st2, rest)) :
    EntryConsume st (0xfe :: r) rec st2 rest := by
  rw [de_eof] at h
  by_cases hr : r = []
  case neg => rw [if_neg hr] at h; cases h
  case pos =>
    rw [if_pos hr] at h
    simp only [Except.ok.injEq, Prod.mk.injEq] at h
    obtain ⟨hrec, hst2, hrest⟩ := h
    subst hr
    refine ⟨1, le_rfl, by simp, by rw [← hrest]; rfl, ?_, ?_, ?_, fun _ => hrest.symm⟩
    · rw [show ([(0xfe : Nat)]).take 1 = [0xfe] from rfl, de_eof, if_pos rfl,
          ← hrec, ← hst2]
    · intro hne
      exact absurd hrec.symm hne
    · intro j hj
      match j with
      | 0 =>
        refine ⟨.ShortRead, ?_, rfl⟩
        rw [List.take_zero, de_nil]

/-- The entry decoder is a consuming parser (all entry kinds). -/
theorem decodeEntry_consume {st : DecState} {bs : List Nat} {rec : Record} {st2 : DecState}
    {rest : List Nat} (h : decodeEntry st bs = .ok (rec, st2, rest)) :
    EntryConsume st bs rec st2 rest := by
  match bs with
  | [] => rw [de_nil] at h; cases h
  | t :: r =>
    by_cases h8 : t ≤ 0xef
    · exact deC_val8 h8 h
    · by_cases hff : t = 0xff
      · subst hff; exact deC_esc h
      · by_cases hf0 : t = 0xf0
        · subst hf0; exact deC_abs h
        · by_cases hrel : t ≤ 0xf4
          · have hk : t = 0xf0 + (t - 0xf0) := by omega
            rw [hk] at h ⊢
            exact deC_rel (by omega) (by omega) h
          · by_cases hf5 : t = 0xf5
            · subst hf5; exact deC_def8 h
            · by_cases hf6 : t = 0xf6
              · subst hf6; exact deC_def16 h
              · by_cases hfe : t = 0xfe
                · subst hfe; exact deC_eof h
                · rw [de_unknown h8 hff hf0 hrel hf5 hf6 hfe] at h
                  cases h

theorem decodeEntry_shrink {st : DecState} {bs : List Nat} {rec : Record} {st2 : DecState}
    {rest : List Nat} (h : decodeEntry st bs = .ok (rec, st2, rest)) :
    rest.length < bs.length := by
  obtain ⟨n, hn1, hnle, hrest, -⟩ := decodeEntry_consume h
  subst hrest
  rw [List.length_drop]
  omega

theorem decodeCore_fuel {f1 : Nat} : ∀ {f2 : Nat} {st : DecState} {bs : List Nat},
    bs.length < f1 → bs.length < f2 → decodeCore f1 st bs = decodeCore f2 st bs := by
  induction f1 with
  | zero =>
    intro f2 st bs h1 h2
    omega
  | succ g1 ih =>
    intro f2 st bs h1 h2
    match f2, bs with
    | 0, bs => exact absurd h2 (by omega)
    | g2 + 1, [] => rfl
    | g2 + 1, b :: bs' =>
      cases hde : decodeEntry st (b :: bs') with
      | error e => simp only [decodeCore, hde]
      | ok p =>
        obtain ⟨rec, st2, rest⟩ := p
        have hs := decodeEntry_shrink hde
        have hlen : (b :: bs').length = bs'.length + 1 := rfl
        simp only [decodeCore, hde]
        rw [ih (show rest.length < g1 by omega) (show rest.length < g2 by omega)]

/-- Run the decoder with canonical fuel. -/
def runDec (st : DecState) (bs : List Nat) : List Record × DecState × Option FormatError :=
  decodeCore (bs.length + 1) st bs

theorem runDec_nil {st : DecState} : runDec st [] = ([], st, none) := rfl

theorem runDec_error {st : DecState} {bs : List Nat} {e : FormatError}
    (hbs : bs ≠ []) (hde : decodeEntry st bs = .error e) :
    runDec st bs = ([], st, some e) := by
  match bs with
  | [] => exact absurd rfl hbs
  | b :: bs' =>
    unfold runDec
    simp only [decodeCore, hde]

theorem runDec_step {st : DecState} {bs : List Nat} {rec : Record} {st2 : DecState}
    {rest : List Nat} (hde : decodeEntry st bs = .ok (rec, st2, rest)) :
    runDec st bs =
      (rec :: (runDec st2 rest).1, (runDec st2 rest).2.1, (runDec st2 rest).2.2) := by
  match bs with
  | [] => rw [de_nil] at hde; cases hde
  | b :: bs' =>
    have hs := decodeEntry_shrink hde
    have hfuel : decodeCore ((b :: bs').length) st2 rest
        = decodeCore (rest.length + 1) st2 rest :=
      decodeCore_fuel hs (by omega)
    unfold runDec
    simp only [decodeCore, hde]
    rw [hfuel]

/-- Composition: a complete leading entry (not end-of-file) prepends its
record, and decoding continues in the successor state on the remaining
bytes. -/
theorem runDec_append {st st2 : DecState} {c : List Nat} {rec : Record}
    (hde : decodeEntry st c = .ok (rec, st2, [])) (hne : rec ≠ .eof) (t : List Nat) :
    runDec st (c ++ t) =
      (rec :: (runDec st2 t).1, (runDec st2 t).2.1, (runDec st2 t).2.2) := by
  obtain ⟨n, hn1, hnle, hrest, htake, hext, -⟩ := decodeEntry_consume hde
  have hcn : n = c.length := by
    have hl := congrArg List.length hrest
    rw [List.length_drop] at hl
    simp at hl
    omega
  have hct : c.take n = c := by rw [hcn, List.take_length]
  have hde2 : decodeEntry st (c ++ t) = .ok (rec, st2, t) := by
    have := hext hne t
    rwa [hct] at this
  exact runDec_step hde2

/-- Crash tolerance at the entry-stream level: if a byte stream decodes to
the end without error, then decoding any byte prefix of it yields a prefix
of its record stream, stopping either cleanly or with a truncation-class
error. -/
theorem decodeCore_prefix {f : Nat} : ∀ {st : DecState} {bs p : List Nat},
    p <+: bs → bs.length < f → (decodeCore f st bs).2.2 = none →
    ((decodeCore f st p).1 <+: (decodeCore f st bs).1 ∧
      ((decodeCore f st p).2.2 = none ∨
        ∃ e, (decodeCore f st p).2.2 = some e ∧ truncClass e = true)) := by
  induction f with
  | zero =>
    intro st bs p hp hlen hok
    omega
  | succ g ih =>
    intro st bs p hp hlen hok
    match bs, p with
    | bs, [] =>
      constructor
      · match bs with
        | [] => exact List.nil_prefix
        | b :: bs' => exact List.nil_prefix
      · left
        rfl
    | [], q :: p' =>
      exact absurd (List.prefix_nil.mp hp) (by simp)
    | b :: bs', q :: p' =>
      cases hde : decodeEntry st (b :: bs') with
      | error e =>
        rw [show (decodeCore (g + 1) st (b :: bs')).2.2 = some e by
          simp only [decodeCore, hde]] at hok
        cases hok
      | ok trip =>
        obtain ⟨rec, st2, rest⟩ := trip
        obtain ⟨n, hn1, hnle, hrest, htake, hext, htr, heof⟩ := decodeEntry_consume hde
        have hplen : (q :: p').length ≤ (b :: bs').length := hp.length_le
        have hlb : (b :: bs').length = bs'.length + 1 := by simp
        have hlp : (q :: p').length = p'.length + 1 := by simp
        by_cases hpn : n ≤ (q :: p').length
        · -- the cut lies at or after the first entry boundary
          by_cases he : rec = .eof
          · -- the entry is the end-of-file marker: it consumes everything
            have hr0 : rest = [] := heof he
            have hbslen : (b :: bs').length = n := by
              have hl := congrArg List.length hrest
              rw [hr0, List.length_drop] at hl
              simp only [List.length_nil] at hl
              omega
            have hpeq : (q :: p') = (b :: bs') := by
              apply List.IsPrefix.eq_of_length_le hp
              omega
            rw [hpeq]
            exact ⟨List.prefix_refl _, Or.inl hok⟩
          · -- ordinary entry: peel it and recurse
            have hptake : (q :: p').take n = (b :: bs').take n := by
              rw [List.prefix_iff_eq_take.mp hp, List.take_take,
                  min_eq_left hpn]
            have hpsplit : (q :: p') = (b :: bs').take n ++ (q :: p').drop n := by
              rw [← hptake, List.take_append_drop]
            have hde2 : decodeEntry st (q :: p') = .ok (rec, st2, (q :: p').drop n) := by
              have h1 := hext he ((q :: p').drop n)
              rwa [← hpsplit] at h1
            have hde1 : decodeEntry st (b :: bs') = .ok (rec, st2, rest) := hde
            have hs1 := decodeEntry_shrink hde1
            have hs2 := decodeEntry_shrink hde2
            have hdroppre : (q :: p').drop n <+: rest := by
              rw [hrest, List.prefix_iff_eq_take.mp hp, List.drop_take]
              exact List.take_prefix _ _
            have hrestlen : rest.length < g := by
              have : (b :: bs').length = bs'.length + 1 := rfl
              omega
            have hoktail : (decodeCore g st2 rest).2.2 = none := by
              rw [show (decodeCore (g + 1) st (b :: bs')).2.2
                  = (decodeCore g st2 rest).2.2 by simp only [decodeCore, hde]] at hok
              exact hok
            obtain ⟨ihpre, iherr⟩ := ih hdroppre hrestlen hoktail
            constructor
            · rw [show (decodeCore (g + 1) st (q :: p')).1
                  = rec :: (decodeCore g st2 ((q :: p').drop n)).1 by
                    simp only [decodeCore, hde2],
                  show (decodeCore (g + 1) st (b :: bs')).1
                  = rec :: (decodeCore g st2 rest).1 by
                    simp only [decodeCore, hde]]
              obtain ⟨tl, htl⟩ := ihpre
              exact ⟨tl, by rw [List.cons_append, htl]⟩
            · rw [show (decodeCore (g + 1) st (q :: p')).2.2
                  = (decodeCore g st2 ((q :: p').drop n)).2.2 by
                    simp only [decodeCore, hde2]]
              exact iherr
        · -- the cut lies inside the first entry
          have hqp : (q :: p') = (b :: bs').take (q :: p').length :=
            List.prefix_iff_eq_take.mp hp
          obtain ⟨e, he, hc⟩ := htr (q :: p').length (by omega)
          have hde2 : decodeEntry st (q :: p') = .error e := by rw [hqp]; exact he
          constructor
          · rw [show (decodeCore (g + 1) st (q :: p')).1 = [] by
              simp only [decodeCore, hde2]]
            exact List.nil_prefix
          · right
            exact ⟨e, by simp only [decodeCore, hde2], hc⟩

theorem runDec_prefix {st : DecState} {bs p : List Nat} (hp : p <+: bs)
    (hok : (runDec st bs).2.2 = none) :
    (runDec st p).1 <+: (runDec st bs).1 ∧
      ((runDec st p).2.2 = none ∨ ∃ e, (runDec st p).2.2 = some e ∧ truncClass e = true) := by
  have hlen := hp.length_le
  have h1 : runDec st p = decodeCore (bs.length + 1) st p :=
    decodeCore_fuel (by omega) (by omega)
  have h2 : runDec st bs = decodeCore (bs.length + 1) st bs :=
    decodeCore_fuel (by omega) (by omega)
  rw [h1, h2]
  rw [h2] at hok
  exact decodeCore_prefix hp (by omega) hok

theorem decodeEntries_eq (fin : Bool) (st : DecState) (bs : List Nat) :
    decodeEntries fin st bs =
      match (runDec st bs).2.2 with
      | none => .ok (runDec st bs).1
      | some e =>
        if truncClass e then (if fin then .error .Truncated else .ok (runDec st bs).1)
        else .error e := rfl

theorem readN_exact_append {w : Nat} {bs : List Nat} (h : bs.length = w) (t : List Nat) :
    readN w (bs ++ t) = .ok (leVal bs, t) := by
  rw [readN_append (by omega), ← h, List.take_length, List.drop_length, List.nil_append]

theorem readN_exact {w : Nat} {bs : List Nat} (h : bs.length = w) :
    readN w bs = .ok (leVal bs, []) := by
  have := readN_exact_append h []
  rwa [List.append_nil] at this

theorem readB_exact_append {w : Nat} {bs : List Nat} (h : bs.length = w) (t : List Nat) :
    readB w (bs ++ t) = .ok (bs, t) := by
  rw [readB_append (by omega), ← h, List.take_length, List.drop_length, List.nil_append]

theorem readB_exact {w : Nat} {bs : List Nat} (h : bs.length = w) :
    readB w bs = .ok (bs, []) := by
  have := readB_exact_append h []
  rwa [List.append_nil] at this

/-! ## Channel registry lemmas -/

theorem lookupChan_none_of_not_mem {C : List (Nat × Nat × List Nat)} {id : Nat}
    (h : id ∉ C.map (fun c => c.1)) : lookupChan C id = none := by
  induction C with
  | nil => rfl
  | cons e C ih =>
    obtain ⟨eid, efid, enm⟩ := e
    simp only [List.map_cons, List.mem_cons] at h
    push_neg at h
    simp only [lookupChan, if_neg (Ne.symm h.1)]
    exact ih h.2

theorem lookupChan_append_self {C : List (Nat × Nat × List Nat)} {id fid : Nat}
    {nm : List Nat} (h : lookupChan C id = none) :
    lookupChan (C ++ [(id, fid, nm)]) id = some (fid, nm) := by
  induction C with
  | nil => simp [lookupChan]
  | cons e C ih =>
    obtain ⟨eid, efid, enm⟩ := e
    simp only [lookupChan] at h
    by_cases he : eid = id
    · rw [if_pos he] at h
      cases h
    · rw [if_neg he] at h
      simp only [List.cons_append, lookupChan, if_neg he]
      exact ih h

theorem lookupChan_mem_nodup {C : List (Nat × Nat × List Nat)} {id fid : Nat}
    {nm : List Nat} (hmem : (id, fid, nm) ∈ C) (hnd : (C.map (fun c => c.1)).Nodup) :
    lookupChan C id = some (fid, nm) := by
  induction C with
  | nil => cases hmem
  | cons e C ih =>
    obtain ⟨eid, efid, enm⟩ := e
    simp only [List.map_cons, List.nodup_cons] at hnd
    rcases List.mem_cons.mp hmem with he | hmem2
    · cases he
      simp [lookupChan]
    · have hne : eid ≠ id := by
        intro he
        apply hnd.1
        subst he
        exact List.mem_map.mpr ⟨(eid, fid, nm), hmem2, rfl⟩
      simp only [lookupChan, if_neg hne]
      exact ih hmem2 hnd.2

theorem lookupName_mem {C : List (Nat × Nat × List Nat)} {nm : List Nat} {id fid : Nat}
    (h : lookupName C nm = some (id, fid)) : (id, fid, nm) ∈ C := by
  induction C with
  | nil => cases h
  | cons e C ih =>
    obtain ⟨eid, efid, enm⟩ := e
    simp only [lookupName] at h
    by_cases he : enm = nm
    · rw [if_pos he] at h
      simp only [Option.some.injEq, Prod.mk.injEq] at h
      obtain ⟨h1, h2⟩ := h
      subst he
      subst h1
      subst h2
      exact List.mem_cons_self _ _
    · rw [if_neg he] at h
      exact List.mem_cons_of_mem _ (ih h)

/-! ## Decoding the writer's emitted chunks -/

/-- A byte chunk decodes to the records `rs`, carrying the decoder from `st`
to `st2`, regardless of what follows it in the stream. -/
def ChunkDecodes (st : DecState) (c : List Nat) (rs : List Record) (st2 : DecState) : Prop :=
  ∀ t, runDec st (c ++ t) =
    (rs ++ (runDec st2 t).1, (runDec st2 t).2.1, (runDec st2 t).2.2)

theorem chunkDecodes_nil (st : DecState) : ChunkDecodes st [] [] st := by
  intro t
  rw [List.nil_append, List.nil_append]

theorem chunkDecodes_entry {st st2 : DecState} {c : List Nat} {rec : Record}
    (hde : decodeEntry st c = .ok (rec, st2, [])) (hne : rec ≠ .eof) :
    ChunkDecodes st c [rec] st2 := by
  intro t
  rw [runDec_append hde hne t]
  rfl

theorem chunkDecodes_comp {st st1 st2 : DecState} {c1 c2 : List Nat}
    {rs1 rs2 : List Record} (h1 : ChunkDecodes st c1 rs1 st1)
    (h2 : ChunkDecodes st1 c2 rs2 st2) :
    ChunkDecodes st (c1 ++ c2) (rs1 ++ rs2) st2 := by
  intro t
  rw [List.append_assoc, h1 (c2 ++ t), h2 t, List.append_assoc]

theorem chunkDecodes_run {st st2 : DecState} {c : List Nat} {rs : List Record}
    (h : ChunkDecodes st c rs st2) : runDec st c = (rs, st2, none) := by
  have := h []
  rwa [List.append_nil, runDec_nil, List.append_nil] at this

theorem intGroupWidth_pos {g w : Nat} (h : intGroupWidth g = some w) : 1 ≤ w := by
  unfold intGroupWidth at h
  split at h <;> simp_all <;> omega

theorem payloadKind_intK_width {fid w nib : Nat} {sg : Bool}
    (h : payloadKind fid = some (.intK w sg nib)) : 1 ≤ w := by
  unfold payloadKind at h
  split_ifs at h <;> try simp_all
  all_goals
    cases hg : intGroupWidth (fid / 16) with
    | none => simp only [hg] at h; cases h
    | some w2 =>
      simp only [hg] at h
      first
        | (simp only [Option.some.injEq, PayloadKind.intK.injEq] at h
           obtain ⟨hw, -, -⟩ := h
           subst hw
           exact intGroupWidth_pos hg)
        | cases h

/-- Round trip of one value payload: whatever the writer encodes, the value
codec decodes back to the same abstract value, consuming the payload
exactly. -/
theorem encodePayload_decode {fid : Nat} {av : AppendValue} {pl : List Nat}
    (h : encodePayload fid av = some pl) :
    decodePayload fid pl = .ok (decodedValue fid av, []) := by
  unfold encodePayload at h
  cases hk : payloadKind fid with
  | none => rw [hk] at h; cases av <;> cases h
  | some k =>
    rw [hk] at h
    cases k with
    | float32 =>
      cases av with
      | f32 b =>
        have h2 : (if b < 2 ^ 32 then some (leBytes 4 b) else none) = some pl := h
        by_cases hb : b < 2 ^ 32
        · rw [if_pos hb] at h2
          simp only [Option.some.injEq] at h2
          subst h2
          rw [decodePayload_f32 hk,
              readN_exact (by rw [leBytes_length] : (leBytes 4 b).length = 4)]
          have : leVal (leBytes 4 b) = b := leVal_leBytes_of_lt (by norm_num; omega)
          rw [this]
          unfold decodedValue
          rw [hk]
        · rw [if_neg hb] at h2
          cases h2
      | int x => cases h
      | str s0 => cases h
      | f64 b => cases h
    | float64 =>
      cases av with
      | f64 b =>
        have h2 : (if b < 2 ^ 64 then some (leBytes 8 b) else none) = some pl := h
        by_cases hb : b < 2 ^ 64
        · rw [if_pos hb] at h2
          simp only [Option.some.injEq] at h2
          subst h2
          rw [decodePayload_f64 hk,
              readN_exact (by rw [leBytes_length] : (leBytes 8 b).length = 8)]
          have : leVal (leBytes 8 b) = b := leVal_leBytes_of_lt (by norm_num; omega)
          rw [this]
          unfold decodedValue
          rw [hk]
        · rw [if_neg hb] at h2
          cases h2
      | int x => cases h
      | str s0 => cases h
      | f32 b => cases h
    | string lw =>
      cases av with
      | str s0 =>
        have h2 : (if s0.length < 2 ^ (8 * lw)
            then some (leBytes lw s0.length ++ s0) else none) = some pl := h
        by_cases hb : s0.length < 2 ^ (8 * lw)
        · rw [if_pos hb] at h2
          simp only [Option.some.injEq] at h2
          subst h2
          rw [decodePayload_str hk,
              readN_exact_append (by rw [leBytes_length] : (leBytes lw s0.length).length = lw)]
          have hlv : leVal (leBytes lw s0.length) = s0.length := leVal_leBytes_of_lt hb
          rw [hlv]
          simp only [le_refl, if_pos, List.take_length, List.drop_length]
          unfold decodedValue
          rw [hk]
        · rw [if_neg hb] at h2
          cases h2
      | int x => cases h
      | f32 b => cases h
      | f64 b => cases h
    | intK w sg nib =>
      have hw : 1 ≤ w := payloadKind_intK_width hk
      cases av with
      | int x =>
        cases sg with
        | true =>
          have h2 : (if -(2 ^ (8 * w - 1)) ≤ x ∧ x < 2 ^ (8 * w - 1)
              then some (leBytes w (twos w x)) else none) = some pl := h
          by_cases hb : -(2 ^ (8 * w - 1)) ≤ x ∧ x < 2 ^ (8 * w - 1)
          · rw [if_pos hb] at h2
            simp only [Option.some.injEq] at h2
            subst h2
            rw [decodePayload_int hk,
                readN_exact (by rw [leBytes_length] : (leBytes w (twos w x)).length = w)]
            have hlv : leVal (leBytes w (twos w x)) = twos w x :=
              leVal_leBytes_of_lt (twos_lt w x)
            rw [hlv]
            have hts := toSigned_twos x hw hb.1 hb.2
            simp only [if_pos, hts]
            unfold decodedValue
            rw [hk]
          · rw [if_neg hb] at h2
            cases h2
        | false =>
          have h2 : (if 0 ≤ x ∧ x < 2 ^ (8 * w)
              then some (leBytes w x.toNat) else none) = some pl := h
          by_cases hb : 0 ≤ x ∧ x < 2 ^ (8 * w)
          · rw [if_pos hb] at h2
            simp only [Option.some.injEq] at h2
            subst h2
            rw [decodePayload_int hk,
                readN_exact (by rw [leBytes_length] : (leBytes w x.toNat).length = w)]
            have hxlt : x.toNat < 2 ^ (8 * w) := by
              have hc := castPow_eq (8 * w)
              omega
            have hlv : leVal (leBytes w x.toNat) = x.toNat :=
              leVal_leBytes_of_lt hxlt
            rw [hlv]
            have hxx : ((x.toNat : Int)) = x := Int.toNat_of_nonneg hb.1
            simp only [Bool.false_eq_true, if_false, hxx]
            unfold decodedValue
            rw [hk]
          · rw [if_neg hb] at h2
            cases h2
      | str s0 => cases h
      | f32 b => cases h
      | f64 b => cases h

theorem decode_chanDefBytes8 {st : DecState} {id fid : Nat} {nm : List Nat}
    (hid : id ≤ 0xef) (hfresh : lookupChan st.channels id = none) :
    decodeEntry st (chanDefBytes id fid nm)
      = .ok (.chanDef id fid nm,
             ⟨st.currentTimestamp, st.channels ++ [(id, fid, nm)]⟩, []) := by
  rw [show chanDefBytes id fid nm = 0xf5 :: id :: fid :: nm.length :: nm from by
    unfold chanDefBytes; rw [if_pos hid]]
  rw [de_def8]
  simp only [readN_one, if_neg (by omega : ¬ 0xef < id), hfresh,
    readB_exact (rfl : nm.length = nm.length)]

theorem decode_chanDefBytes16 {st : DecState} {id fid : Nat} {nm : List Nat}
    (hid : 0xf0 ≤ id) (hid2 : id ≤ 0xffff) (hfresh : lookupChan st.channels id = none) :
    decodeEntry st (chanDefBytes id fid nm)
      = .ok (.chanDef id fid nm,
             ⟨st.currentTimestamp, st.channels ++ [(id, fid, nm)]⟩, []) := by
  have hsplit : chanDefBytes id fid nm
      = 0xf6 :: (id % 256) :: (id / 256 % 256) :: fid :: nm.length :: nm := by
    unfold chanDefBytes
    rw [if_neg (by omega)]
    simp [leBytes]
  have hvv : id % 256 + 256 * (id / 256 % 256) = id := by
    have h1 := leVal_leBytes_of_lt (w := 2) (v := id) (by norm_num; omega)
    have h2 : leVal (leBytes 2 id) = id % 256 + 256 * (id / 256 % 256) := by
      simp [leBytes, leVal]
    omega
  rw [hsplit, de_def16]
  simp only [readN_two, readN_one, hvv, if_neg (by omega : ¬ id < 0xf0), hfresh,
    readB_exact (rfl : nm.length = nm.length)]

theorem decode_timeAbs {st : DecState} {ts : Nat} (hts : ts < 2 ^ 64) :
    decodeEntry st (0xf0 :: leBytes 8 ts)
      = .ok (.timeSet ts, ⟨some ts, st.channels⟩, []) := by
  rw [de_abs, readN_exact (leBytes_length 8 ts)]
  have hlv : leVal (leBytes 8 ts) = ts := leVal_leBytes_of_lt (by norm_num; omega)
  rw [hlv]

theorem decode_timeRel {st : DecState} {ts d k : Nat} (h1 : 1 ≤ k) (h2 : k ≤ 4)
    (hts : st.currentTimestamp = some ts) (hd : d < 2 ^ (8 * k)) :
    decodeEntry st ((0xf0 + k) :: leBytes k d)
      = .ok (.timeSet (ts + d), ⟨some (ts + d), st.channels⟩, []) := by
  rw [de_rel h1 h2, readN_exact (leBytes_length k d)]
  have hlv : leVal (leBytes k d) = d := leVal_leBytes_of_lt hd
  rw [hlv]
  simp only [hts]

theorem timeEntryBytes_none (vat : Bool) (ts : Nat) :
    timeEntryBytes none vat ts = 0xf0 :: leBytes 8 ts := rfl

theorem timeEntryBytes_some (l : Nat) (vat : Bool) (ts : Nat) :
    timeEntryBytes (some l) vat ts =
      if ts < l then 0xf0 :: leBytes 8 ts
      else if ts - l = 0 ∧ vat = true then []
      else if ts - l ≤ 0xff then 0xf1 :: leBytes 1 (ts - l)
      else if ts - l ≤ 0xffff then 0xf2 :: leBytes 2 (ts - l)
      else if ts - l ≤ 0xffffff then 0xf3 :: leBytes 3 (ts - l)
      else 0xf4 :: leBytes 4 (ts - l) := rfl

/-- Decoding the writer's time entry before a value at time `ts`: either it
is skipped (and the decoder clock already reads `ts`), or it is one complete
entry moving the decoder clock to `ts`. -/
theorem decode_timeEntryBytes {st : DecState} {lastTs : Option Nat} {ts : Nat} {vat : Bool}
    (hst : st.currentTimestamp = lastTs) (hts : ts < 2 ^ 64)
    (hdelta : ∀ l, lastTs = some l → ¬ ts < l → ts - l ≤ 0xffffffff) :
    (timeEntryBytes lastTs vat ts = [] ∧ lastTs = some ts) ∨
    (timeEntryBytes lastTs vat ts ≠ [] ∧
      decodeEntry st (timeEntryBytes lastTs vat ts)
        = .ok (.timeSet ts, ⟨some ts, st.channels⟩, [])) := by
  cases lastTs with
  | none =>
    right
    rw [timeEntryBytes_none]
    exact ⟨by simp, decode_timeAbs hts⟩
  | some l =>
    by_cases hlt : ts < l
    · right
      rw [timeEntryBytes_some, if_pos hlt]
      exact ⟨by simp, decode_timeAbs hts⟩
    · have hdle := hdelta l rfl hlt
      have hlts : l ≤ ts := by omega
      by_cases hskip : ts - l = 0 ∧ vat = true
      · left
        constructor
        · rw [timeEntryBytes_some, if_neg hlt, if_pos hskip]
        · rw [show l = ts by omega]
      · right
        by_cases hd1 : ts - l ≤ 0xff
        · rw [timeEntryBytes_some, if_neg hlt, if_neg hskip, if_pos hd1]
          refine ⟨by simp, ?_⟩
          have hdec := @decode_timeRel st l (ts - l) 1
            (by norm_num) (by norm_num) hst (by norm_num; omega)
          rw [show l + (ts - l) = ts by omega] at hdec
          exact hdec
        · by_cases hd2 : ts - l ≤ 0xffff
          · rw [timeEntryBytes_some, if_neg hlt, if_neg hskip, if_neg hd1, if_pos hd2]
            refine ⟨by simp, ?_⟩
            have hdec := @decode_timeRel st l (ts - l) 2
              (by norm_num) (by norm_num) hst (by norm_num; omega)
            rw [show l + (ts - l) = ts by omega] at hdec
            exact hdec
          · by_cases hd3 : ts - l ≤ 0xffffff
            · rw [timeEntryBytes_some, if_neg hlt, if_neg hskip, if_neg hd1, if_neg hd2,
                  if_pos hd3]
              refine ⟨by simp, ?_⟩
              have hdec := @decode_timeRel st l (ts - l) 3
                (by norm_num) (by norm_num) hst (by norm_num; omega)
              rw [show l + (ts - l) = ts by omega] at hdec
              exact hdec
            · rw [timeEntryBytes_some, if_neg hlt, if_neg hskip, if_neg hd1, if_neg hd2,
                  if_neg hd3]
              refine ⟨by simp, ?_⟩
              have hdec := @decode_timeRel st l (ts - l) 4
                (by norm_num) (by norm_num) hst (by norm_num; omega)
              rw [show l + (ts - l) = ts by omega] at hdec
              exact hdec

theorem decode_valueEntryBytes {st : DecState} {id fid ts : Nat} {nm payload : List Nat}
    {v : Value} (hts : st.currentTimestamp = some ts)
    (hlc : lookupChan st.channels id = some (fid, nm))
    (hpl : decodePayload fid payload = .ok (v, []))
    (hid : id ≤ 0xffff) :
    decodeEntry st (valueEntryBytes id payload) = .ok (.value nm fid ts v, st, []) := by
  by_cases h8 : id ≤ 0xef
  · rw [show valueEntryBytes id payload = id :: payload from by
      unfold valueEntryBytes; rw [if_pos h8]]
    rw [de_val8 h8]
    simp only [hts, hlc, hpl]
  · rw [show valueEntryBytes id payload = 0xff :: (leBytes 2 id ++ payload) from by
      unfold valueEntryBytes; rw [if_neg h8]]
    rw [de_esc, readN_exact_append (leBytes_length 2 id)]
    have hlv : leVal (leBytes 2 id) = id := leVal_leBytes_of_lt (by norm_num; omega)
    rw [hlv]
    simp only [if_neg (by omega : ¬ id < 0xf0), hts, hlc, hpl]

/-! ## Writer invariant and simulation -/

/-- The writer's channel-id shape: dense 8-bit ids from 0, then dense
16-bit ids from 0xf0. -/
def idShape (n8 n16 : Nat) : List Nat :=
  List.range n8 ++ (List.range (n16 - 0xf0)).map (fun i => 0xf0 + i)

/-- Invariant of the modelled writer state. -/
def WInv (w : WriterState) : Prop :=
  w.next8 ≤ 0xf0 ∧ 0xf0 ≤ w.next16 ∧ w.next16 ≤ 0x10000 ∧
  (0xf0 < w.next16 → w.next8 = 0xf0) ∧
  w.chans.map (fun c => c.1) = idShape w.next8 w.next16 ∧
  (∀ l, w.lastTs = some l → l < 2 ^ 64)

theorem WInv_init : WInv initWriter := by
  refine ⟨by decide, by decide, by decide, by decide, ?_, ?_⟩
  · simp [initWriter, idShape]
  · intro l hl
    simp [initWriter] at hl

theorem idShape_nodup {n8 n16 : Nat} (h8 : n8 ≤ 0xf0) : (idShape n8 n16).Nodup := by
  apply List.Nodup.append
  · exact List.nodup_range _
  · exact List.Nodup.map (fun a b hab => by omega) (List.nodup_range _)
  · intro x hx hy
    have hx' := List.mem_range.mp hx
    obtain ⟨i, hi, hix⟩ := List.mem_map.mp hy
    omega

theorem idShape_mem_bound {n8 n16 x : Nat} (h8 : n8 ≤ 0xf0) (h16 : 0xf0 ≤ n16)
    (hx : x ∈ idShape n8 n16) : x < n8 ∨ (0xf0 ≤ x ∧ x < n16) := by
  rcases List.mem_append.mp hx with hx1 | hx2
  · exact Or.inl (List.mem_range.mp hx1)
  · obtain ⟨i, hi, hix⟩ := List.mem_map.mp hx2
    have := List.mem_range.mp hi
    omega

theorem idShape_fresh8 {n8 n16 : Nat} (h8 : n8 ≤ 0xef) (h16 : 0xf0 ≤ n16) :
    n8 ∉ idShape n8 n16 := by
  intro hmem
  rcases idShape_mem_bound (by omega) h16 hmem with h | h <;> omega

theorem idShape_fresh16 {n8 n16 : Nat} (h8 : n8 ≤ 0xf0) (h16 : 0xf0 ≤ n16) :
    n16 ∉ idShape n8 n16 := by
  intro hmem
  rcases idShape_mem_bound h8 h16 hmem with h | h <;> omega

theorem valueTsOf_append (r1 r2 : List Record) :
    valueTsOf (r1 ++ r2) = valueTsOf r1 ++ valueTsOf r2 := by
  induction r1 with
  | nil => rfl
  | cons r r1 ih =>
    cases r <;> simp [valueTsOf, ih]

theorem chanDefsOf_append (r1 r2 : List Record) :
    chanDefsOf (r1 ++ r2) = chanDefsOf r1 ++ chanDefsOf r2 := by
  induction r1 with
  | nil => rfl
  | cons r r1 ih =>
    cases r <;> simp [chanDefsOf, ih]

theorem valueRecordsOf_append (r1 r2 : List Record) :
    valueRecordsOf (r1 ++ r2) = valueRecordsOf r1 ++ valueRecordsOf r2 := by
  induction r1 with
  | nil => rfl
  | cons r r1 ih =>
    cases r <;> simp [valueRecordsOf, ih]

/-- Shared continuation of the append simulation: given a decoded channel
definition chunk and a registry in which the channel id resolves to the
appended name and format, the time entry and value entry decode to the
expected records. -/
theorem writerAppend_sim_core {w : WriterState} {a : Append} {payload : List Nat}
    {id : Nat} {chans2 : List (Nat × Nat × List Nat)}
    {defB : List Nat} {cdRecs : List Record}
    (cdefs : List (Nat × Nat × List Nat))
    (hts : a.ts < 2 ^ 64)
    (hdelta : ∀ l, w.lastTs = some l → ¬ a.ts < l → a.ts - l ≤ 0xffffffff)
    (hpl : decodePayload a.fid payload = .ok (decodedValue a.fid a.val, []))
    (hcd : ChunkDecodes ⟨w.lastTs, w.chans⟩ defB cdRecs ⟨w.lastTs, chans2⟩)
    (hcdv : valueTsOf cdRecs = [] ∧ valueRecordsOf cdRecs = [] ∧ chanDefsOf cdRecs = cdefs)
    (hlook : lookupChan chans2 id = some (a.fid, a.name))
    (hid : id ≤ 0xffff) :
    ∃ rs, ChunkDecodes ⟨w.lastTs, w.chans⟩
        (defB ++ (timeEntryBytes w.lastTs w.valueAtTs a.ts ++ valueEntryBytes id payload))
        rs ⟨some a.ts, chans2⟩ ∧
      valueTsOf rs = [a.ts] ∧
      valueRecordsOf rs
        = [(a.name, a.ts, decodedValue a.fid a.val, decimalsOfFormat a.fid)] ∧
      chanDefsOf rs = cdefs := by
  have hvdec : decodeEntry ⟨some a.ts, chans2⟩ (valueEntryBytes id payload)
      = .ok (.value a.name a.fid a.ts (decodedValue a.fid a.val),
             ⟨some a.ts, chans2⟩, []) :=
    decode_valueEntryBytes rfl hlook hpl hid
  have hvc : ChunkDecodes ⟨some a.ts, chans2⟩ (valueEntryBytes id payload)
      [.value a.name a.fid a.ts (decodedValue a.fid a.val)] ⟨some a.ts, chans2⟩ :=
    chunkDecodes_entry hvdec (by simp)
  rcases @decode_timeEntryBytes ⟨w.lastTs, chans2⟩ w.lastTs a.ts w.valueAtTs
      rfl hts hdelta with ⟨htB0, hteq0⟩ | ⟨-, htdec⟩
  · -- the time entry is skipped: the clock already reads the append time
    have htB : timeEntryBytes w.lastTs w.valueAtTs a.ts = [] := htB0
    have hteq : w.lastTs = some a.ts := hteq0
    have hvc2 : ChunkDecodes ⟨w.lastTs, chans2⟩ (valueEntryBytes id payload)
        [.value a.name a.fid a.ts (decodedValue a.fid a.val)] ⟨some a.ts, chans2⟩ := by
      rw [hteq]
      exact hvc
    refine ⟨cdRecs ++ [.value a.name a.fid a.ts (decodedValue a.fid a.val)], ?_, ?_, ?_, ?_⟩
    · rw [htB, List.nil_append]
      exact chunkDecodes_comp hcd hvc2
    · rw [valueTsOf_append, hcdv.1, List.nil_append]
      rfl
    · rw [valueRecordsOf_append, hcdv.2.1, List.nil_append]
      rfl
    · rw [chanDefsOf_append, hcdv.2.2]
      simp [chanDefsOf]
  · -- one time entry, then the value entry
    have htc : ChunkDecodes ⟨w.lastTs, chans2⟩
        (timeEntryBytes w.lastTs w.valueAtTs a.ts) [.timeSet a.ts] ⟨some a.ts, chans2⟩ :=
      chunkDecodes_entry htdec (by simp)
    refine ⟨cdRecs ++ ([.timeSet a.ts]
        ++ [.value a.name a.fid a.ts (decodedValue a.fid a.val)]), ?_, ?_, ?_, ?_⟩
    · exact chunkDecodes_comp hcd (chunkDecodes_comp htc hvc)
    · rw [valueTsOf_append, hcdv.1, List.nil_append]
      rfl
    · rw [valueRecordsOf_append, hcdv.2.1, List.nil_append]
      rfl
    · rw [chanDefsOf_append, hcdv.2.2]
      simp [chanDefsOf]

/-- One writer append simulated by the decoder: the emitted bytes decode to
a record chunk whose value record carries exactly the appended tuple, the
registry evolves by the emitted channel definitions, and the writer
invariant is preserved. -/
theorem writerAppend_sim {w w2 : WriterState} {a : Append} (hinv : WInv w)
    (h : writerAppend w a = some w2) :
    WInv w2 ∧
    ∃ Δ rs cdefs,
      w2.bytes = w.bytes ++ Δ ∧
      w2.chans = w.chans ++ cdefs ∧
      ChunkDecodes ⟨w.lastTs, w.chans⟩ Δ rs ⟨w2.lastTs, w2.chans⟩ ∧
      valueTsOf rs = [a.ts] ∧
      valueRecordsOf rs
        = [(a.name, a.ts, decodedValue a.fid a.val, decimalsOfFormat a.fid)] ∧
      chanDefsOf rs = cdefs ∧
      w2.lastTs = some a.ts := by
  obtain ⟨hn8, hn16l, hn16u, hdense, hshape, hlast⟩ := hinv
  unfold writerAppend at h
  by_cases hg : a.ts < 2 ^ 64 ∧ a.name.length ≤ 0xff
  case neg => rw [if_neg hg] at h; cases h
  case pos =>
  rw [if_pos hg] at h
  cases henc : encodePayload a.fid a.val with
  | none => simp only [henc] at h; cases h
  | some payload =>
  simp only [henc] at h
  cases halloc : allocChan w a.name a.fid with
  | none => simp only [halloc] at h; cases h
  | some q =>
  obtain ⟨id, defB, chans2, n8, n16⟩ := q
  simp only [halloc] at h
  by_cases hdok : deltaOkB w.lastTs a.ts = true
  case neg => rw [if_neg hdok] at h; cases h
  case pos =>
  rw [if_pos hdok] at h
  simp only [Option.some.injEq] at h
  subst h
  have hnodup : (w.chans.map (fun c => c.1)).Nodup := by
    rw [hshape]
    exact idShape_nodup hn8
  have hdelta : ∀ l, w.lastTs = some l → ¬ a.ts < l → a.ts - l ≤ 0xffffffff := by
    intro l hl hnl
    unfold deltaOkB at hdok
    rw [hl] at hdok
    simp only [Bool.or_eq_true, decide_eq_true_eq] at hdok
    tauto
  have hpl := encodePayload_decode henc
  unfold allocChan at halloc
  cases hln : lookupName w.chans a.name with
  | some p =>
    obtain ⟨id0, fid0⟩ := p
    simp only [hln] at halloc
    by_cases hfid : fid0 = a.fid
    case neg => rw [if_neg hfid] at halloc; cases halloc
    case pos =>
    rw [if_pos hfid] at halloc
    simp only [Option.some.injEq, Prod.mk.injEq] at halloc
    obtain ⟨hid0, hdefB, hchans2, hnn8, hnn16⟩ := halloc
    subst hid0
    subst hfid
    have hmem := lookupName_mem hln
    have hidb : id0 ≤ 0xffff := by
      have hmem2 : id0 ∈ w.chans.map (fun c => c.1) :=
        List.mem_map.mpr ⟨(id0, a.fid, a.name), hmem, rfl⟩
      rw [hshape] at hmem2
      rcases idShape_mem_bound hn8 hn16l hmem2 with h | h <;> omega
    have hlook : lookupChan chans2 id0 = some (a.fid, a.name) := by
      rw [← hchans2]
      exact lookupChan_mem_nodup hmem hnodup
    have hcd : ChunkDecodes ⟨w.lastTs, w.chans⟩ defB [] ⟨w.lastTs, chans2⟩ := by
      rw [← hdefB, ← hchans2]
      exact chunkDecodes_nil _
    obtain ⟨rs, hrs1, hrs2, hrs3, hrs4⟩ :=
      writerAppend_sim_core [] hg.1 hdelta hpl hcd
        (by refine ⟨rfl, rfl, rfl⟩) hlook hidb
    constructor
    · refine ⟨?_, ?_, ?_, ?_, ?_, ?_⟩
      · show n8 ≤ 0xf0
        omega
      · show 0xf0 ≤ n16
        omega
      · show n16 ≤ 0x10000
        omega
      · show 0xf0 < n16 → n8 = 0xf0
        intro hlt
        have := hdense (by omega)
        omega
      · show chans2.map (fun c => c.1) = idShape n8 n16
        rw [← hchans2, ← hnn8, ← hnn16]
        exact hshape
      · show ∀ l, some a.ts = some l → l < 2 ^ 64
        intro l hl
        injection hl with hh
        exact hh ▸ hg.1
    · refine ⟨defB ++ (timeEntryBytes w.lastTs w.valueAtTs a.ts
          ++ valueEntryBytes id0 payload), rs, [], ?_, ?_, ?_, hrs2, hrs3, hrs4, rfl⟩
      · simp only [List.append_assoc]
      · rw [← hchans2, List.append_nil]
      · exact hrs1
  | none =>
    simp only [hln] at halloc
    by_cases h8 : w.next8 ≤ 0xef
    case pos =>
      rw [if_pos h8] at halloc
      simp only [Option.some.injEq, Prod.mk.injEq] at halloc
      obtain ⟨hid0, hdefB, hchans2, hnn8, hnn16⟩ := halloc
      have hfresh : lookupChan w.chans w.next8 = none := by
        apply lookupChan_none_of_not_mem
        rw [hshape]
        exact idShape_fresh8 h8 hn16l
      have hcddec : decodeEntry ⟨w.lastTs, w.chans⟩ (chanDefBytes w.next8 a.fid a.name)
          = .ok (.chanDef w.next8 a.fid a.name,
                 ⟨w.lastTs, w.chans ++ [(w.next8, a.fid, a.name)]⟩, []) :=
        decode_chanDefBytes8 h8 hfresh
      have hcd : ChunkDecodes ⟨w.lastTs, w.chans⟩ defB [.chanDef w.next8 a.fid a.name]
          ⟨w.lastTs, chans2⟩ := by
        rw [← hdefB, ← hchans2]
        exact chunkDecodes_entry hcddec (by simp)
      have hlook : lookupChan chans2 id = some (a.fid, a.name) := by
        rw [← hchans2, ← hid0]
        exact lookupChan_append_self hfresh
      obtain ⟨rs, hrs1, hrs2, hrs3, hrs4⟩ :=
        writerAppend_sim_core [(w.next8, a.fid, a.name)] hg.1 hdelta hpl hcd
          (by refine ⟨rfl, rfl, rfl⟩) hlook (by omega)
      have h16eq : w.next16 = 0xf0 := by
        by_contra hne
        have := hdense (by omega)
        omega
      constructor
      · refine ⟨?_, ?_, ?_, ?_, ?_, ?_⟩
        · show n8 ≤ 0xf0
          omega
        · show 0xf0 ≤ n16
          omega
        · show n16 ≤ 0x10000
          omega
        · show 0xf0 < n16 → n8 = 0xf0
          intro hlt
          omega
        · show chans2.map (fun c => c.1) = idShape n8 n16
          rw [← hchans2, ← hnn8, ← hnn16, List.map_append, hshape]
          unfold idShape
          rw [h16eq]
          simp [List.range_succ]
        · show ∀ l, some a.ts = some l → l < 2 ^ 64
          intro l hl
          injection hl with hh
          exact hh ▸ hg.1
      · refine ⟨defB ++ (timeEntryBytes w.lastTs w.valueAtTs a.ts
            ++ valueEntryBytes id payload), rs, [(w.next8, a.fid, a.name)],
            ?_, ?_, ?_, hrs2, hrs3, hrs4, rfl⟩
        · simp only [List.append_assoc]
        · rw [← hchans2]
        · exact hrs1
    case neg =>
      rw [if_neg h8] at halloc
      by_cases h16 : w.next16 ≤ 0xffff
      case neg => rw [if_neg h16] at halloc; cases halloc
      case pos =>
      rw [if_pos h16] at halloc
      simp only [Option.some.injEq, Prod.mk.injEq] at halloc
      obtain ⟨hid0, hdefB, hchans2, hnn8, hnn16⟩ := halloc
      have h8eq : w.next8 = 0xf0 := by omega
      have hfresh : lookupChan w.chans w.next16 = none := by
        apply lookupChan_none_of_not_mem
        rw [hshape]
        exact idShape_fresh16 hn8 hn16l
      have hcddec : decodeEntry ⟨w.lastTs, w.chans⟩ (chanDefBytes w.next16 a.fid a.name)
          = .ok (.chanDef w.next16 a.fid a.name,
                 ⟨w.lastTs, w.chans ++ [(w.next16, a.fid, a.name)]⟩, []) :=
        decode_chanDefBytes16 hn16l h16 hfresh
      have hcd : ChunkDecodes ⟨w.lastTs, w.chans⟩ defB [.chanDef w.next16 a.fid a.name]
          ⟨w.lastTs, chans2⟩ := by
        rw [← hdefB, ← hchans2]
        exact chunkDecodes_entry hcddec (by simp)
      have hlook : lookupChan chans2 id = some (a.fid, a.name) := by
        rw [← hchans2, ← hid0]
        exact lookupChan_append_self hfresh
      obtain ⟨rs, hrs1, hrs2, hrs3, hrs4⟩ :=
        writerAppend_sim_core [(w.next16, a.fid, a.name)] hg.1 hdelta hpl hcd
          (by refine ⟨rfl, rfl, rfl⟩) hlook (by omega)
      constructor
      · refine ⟨?_, ?_, ?_, ?_, ?_, ?_⟩
        · show n8 ≤ 0xf0
          omega
        · show 0xf0 ≤ n16
          omega
        · show n16 ≤ 0x10000
          omega
        · show 0xf0 < n16 → n8 = 0xf0
          intro hlt
          omega
        · show chans2.map (fun c => c.1) = idShape n8 n16
          rw [← hchans2, ← hnn8, ← hnn16, List.map_append, hshape]
          unfold idShape
          rw [show w.next16 + 1 - 0xf0 = (w.next16 - 0xf0) + 1 from by omega, List.range_succ]
          simp [List.append_assoc, show 0xf0 + (w.next16 - 0xf0) = w.next16 from by omega]
        · show ∀ l, some a.ts = some l → l < 2 ^ 64
          intro l hl
          injection hl with hh
          exact hh ▸ hg.1
      · refine ⟨defB ++ (timeEntryBytes w.lastTs w.valueAtTs a.ts
            ++ valueEntryBytes id payload), rs, [(w.next16, a.fid, a.name)],
            ?_, ?_, ?_, hrs2, hrs3, hrs4, rfl⟩
        · simp only [List.append_assoc]
        · rw [← hchans2]
        · exact hrs1

/-- The writer fold simulated by the decoder: a successful sequence of appends
emits bytes that decode to record chunks carrying exactly the appended
tuples in order, and the final registry is the initial one extended by the
decoded channel definitions. -/
theorem writeEntries_sim : ∀ (as : List Append) (w w2 : WriterState), WInv w →
    writeEntries w as = some w2 →
    WInv w2 ∧
    ∃ Δ rs,
      w2.bytes = w.bytes ++ Δ ∧
      ChunkDecodes ⟨w.lastTs, w.chans⟩ Δ rs ⟨w2.lastTs, w2.chans⟩ ∧
      valueTsOf rs = as.map (fun a => a.ts) ∧
      valueRecordsOf rs
        = as.map (fun a => (a.name, a.ts, decodedValue a.fid a.val,
            decimalsOfFormat a.fid)) ∧
      w.chans ++ chanDefsOf rs = w2.chans := by
  intro as
  induction as with
  | nil =>
    intro w w2 hinv h
    unfold writeEntries at h
    simp only [Option.some.injEq] at h
    subst h
    exact ⟨hinv, [], [], by rw [List.append_nil], chunkDecodes_nil _, rfl, rfl,
      by show w.chans ++ [] = w.chans; rw [List.append_nil] ⟩
  | cons a as ih =>
    intro w w2 hinv h
    unfold writeEntries at h
    cases h1 : writerAppend w a with
    | none => rw [h1] at h; cases h
    | some w1 =>
      rw [h1] at h
      obtain ⟨hinv1, Δ1, rs1, cdefs, hb1, hc1, hch1, hts1, hvr1, hcd1, hlast1⟩ :=
        writerAppend_sim hinv h1
      obtain ⟨hinv2, Δ2, rs2, hb2, hch2, hts2, hvr2, hcd2⟩ := ih w1 w2 hinv1 h
      refine ⟨hinv2, Δ1 ++ Δ2, rs1 ++ rs2, ?_, ?_, ?_, ?_, ?_⟩
      · rw [hb2, hb1, List.append_assoc]
      · have hch1b : ChunkDecodes ⟨w.lastTs, w.chans⟩ Δ1 rs1 ⟨w1.lastTs, w1.chans⟩ :=
          hch1
        exact chunkDecodes_comp hch1b hch2
      · rw [valueTsOf_append, hts1, hts2, List.map_cons]
        rfl
      · rw [valueRecordsOf_append, hvr1, hvr2, List.map_cons]
        rfl
      · rw [chanDefsOf_append, hcd1, ← List.append_assoc, ← hc1]
        exact hcd2

/-- The 12-byte header as a literal byte list. -/
theorem header_eq :
    header = [0x54, 0x53, 0x44, 0x42, 0, 0, 0, 0, 1, 0, 0, 0] := rfl

/-- Decoding a file that starts with the correct header reduces to decoding
its entry stream. -/
theorem decodeFile_header (fin : Bool) (tail : List Nat) :
    decodeFile fin (header ++ tail) = decodeEntries fin initDec tail := by
  show decodeFile fin
      (0x54 :: 0x53 :: 0x44 :: 0x42 :: 0 :: 0 :: 0 :: 0 :: 1 :: 0 :: 0 :: 0 :: tail)
    = decodeEntries fin initDec tail
  unfold decodeFile
  rw [if_neg (by simp), if_neg (by simp [magic]), if_neg (by simp [leVal])]
  rfl

/-- A writer-produced file decodes without error to the record stream whose
value records are exactly the appended tuples in order and whose channel
definitions form the final registry. -/
theorem writeFile_decode {as : List Append} {bs : List Nat}
    (h : writeFile as = some bs) :
    ∃ w2 rs,
      WInv w2 ∧
      bs = header ++ w2.bytes ∧
      runDec initDec w2.bytes = (rs, ⟨w2.lastTs, w2.chans⟩, none) ∧
      decodeFile false bs = .ok rs ∧
      valueTsOf rs = as.map (fun a => a.ts) ∧
      valueRecordsOf rs
        = as.map (fun a => (a.name, a.ts, decodedValue a.fid a.val,
            decimalsOfFormat a.fid)) ∧
      chanDefsOf rs = w2.chans := by
  unfold writeFile at h
  cases hw : writeEntries initWriter as with
  | none => rw [hw] at h; cases h
  | some w2 =>
    rw [hw] at h
    have h2 : some (header ++ w2.bytes) = some bs := h
    injection h2 with h3
    subst h3
    obtain ⟨hinv, Δ, rs, hb, hch, hts, hvr, hcd⟩ :=
      writeEntries_sim as initWriter w2 WInv_init hw
    have hb2 : w2.bytes = Δ := by rw [hb]; rfl
    have hch2 : ChunkDecodes initDec w2.bytes rs ⟨w2.lastTs, w2.chans⟩ := by
      rw [hb2]
      exact hch
    have hrun : runDec initDec w2.bytes = (rs, ⟨w2.lastTs, w2.chans⟩, none) :=
      chunkDecodes_run hch2
    refine ⟨w2, rs, hinv, rfl, hrun, ?_, hts, hvr, ?_⟩
    · rw [decodeFile_header, decodeEntries_eq, hrun]
    · have : initWriter.chans ++ chanDefsOf rs = w2.chans := hcd
      rw [← this]
      rfl

/-! ## Concrete examples: scenario S1 of the spec, and a non-monotone pair -/

/-- The S1 append: ("temp", format 0x22 = int16 with divisor 100,
1_700_000_000_000 ms, raw value 2345). -/
def s1Append : Append := ⟨[0x74, 0x65, 0x6d, 0x70], 0x22, 1700000000000, .int 2345⟩

/-- The 32-byte file the writer produces for S1. -/
def s1Bytes : List Nat :=
  [0x54, 0x53, 0x44, 0x42, 0, 0, 0, 0, 1, 0, 0, 0,
   0xf5, 0x00, 0x22, 0x04, 0x74, 0x65, 0x6d, 0x70,
   0xf0, 0x00, 0x68, 0xe5, 0xcf, 0x8b, 0x01, 0x00, 0x00,
   0x00, 0x29, 0x09]

/-- The 34-byte sequence the spec's S1 scenario prints for that append. -/
def claimedS1Bytes : List Nat :=
  [0x54, 0x53, 0x44, 0x42, 0x00, 0x00, 0x00, 0x00, 0x01, 0x00, 0x00, 0x00,
   0xf5, 0x00, 0x22, 0x04, 0x74, 0x65, 0x6d, 0x70,
   0xf0, 0x00, 0xa8, 0x33, 0x5c, 0xbf, 0x8b, 0x01, 0x00, 0x00,
   0x00, 0x22, 0x29, 0x09]

/-- The record stream of the S1 file. -/
def s1Records : List Record :=
  [.chanDef 0 0x22 [0x74, 0x65, 0x6d, 0x70],
   .timeSet 1700000000000,
   .value [0x74, 0x65, 0x6d, 0x70] 0x22 1700000000000 (.num ((2345 : ℚ) / 100))]

/-- Two appends to one channel whose timestamps go backwards. -/
def c5Appends : List Append :=
  [⟨[0x61], 0x22, 100, .int 1⟩, ⟨[0x61], 0x22, 50, .int 2⟩]

/-- The file the writer produces for c5Appends: the second time entry is an
absolute one that moves the clock backwards. -/
def c5Bytes : List Nat :=
  [84, 83, 68, 66, 0, 0, 0, 0, 1, 0, 0, 0, 245, 0, 34, 1, 97,
   240, 100, 0, 0, 0, 0, 0, 0, 0, 0, 1, 0,
   240, 50, 0, 0, 0, 0, 0, 0, 0, 0, 2, 0]

/-- The record stream of c5Bytes. -/
def c5Records : List Record :=
  [.chanDef 0 0x22 [0x61], .timeSet 100,
   .value [0x61] 0x22 100 (.num ((1 : ℚ) / 100)),
   .timeSet 50,
   .value [0x61] 0x22 50 (.num ((2 : ℚ) / 100))]

/-- The same two appends in non-decreasing timestamp order. -/
def c5MonoAppends : List Append :=
  [⟨[0x61], 0x22, 50, .int 1⟩, ⟨[0x61], 0x22, 100, .int 2⟩]

/-- The file the writer produces for c5MonoAppends (the second time entry is
a one-byte relative delta). -/
def c5MonoBytes : List Nat :=
  [84, 83, 68, 66, 0, 0, 0, 0, 1, 0, 0, 0, 245, 0, 34, 1, 97,
   240, 50, 0, 0, 0, 0, 0, 0, 0, 0, 1, 0, 241, 50, 0, 2, 0]

/-- The record stream of c5MonoBytes. -/
def c5MonoRecords : List Record :=
  [.chanDef 0 0x22 [0x61], .timeSet 50,
   .value [0x61] 0x22 50 (.num ((1 : ℚ) / 100)),
   .timeSet 100,
   .value [0x61] 0x22 100 (.num ((2 : ℚ) / 100))]

/-! ## The claims -/

/-- C1 (corrected). Round trip of scenario S1: appending
("temp", 0x22 int16 with divisor 100, 1_700_000_000_000 ms, raw 2345) to a
fresh day file produces exactly the 32-byte sequence
header ++ channel definition f5 00 22 04 "temp" ++ absolute time entry 0xf0
carrying 1_700_000_000_000 as 8-byte little-endian ++ value entry 00 29 09,
and decoding that file yields exactly one value record
("temp", 1_700_000_000_000, 23.45, decimals = 2). The claim's byte string
itself is wrong: see the counterexample. -/
theorem C1_round_trip_single_channel :
    writeFile [s1Append] = some s1Bytes ∧
    s1Bytes
      = header ++ [0xf5, 0x00, 0x22, 0x04, 0x74, 0x65, 0x6d, 0x70]
          ++ (0xf0 :: leBytes 8 1700000000000) ++ [0x00, 0x29, 0x09] ∧
    decodeFile false s1Bytes = .ok s1Records ∧
    valueRecordsOf s1Records
      = [([0x74, 0x65, 0x6d, 0x70], 1700000000000, .num ((2345 : ℚ) / 100), 2)] :=
  ⟨rfl, rfl, rfl, rfl⟩

/-- C1 counterexample: the byte string printed in the claim (ending
f0 00 a8 33 5c bf 8b 01 00 00 00 22 29 09) is not what the writer produces
for the S1 append, is not a prefix of it, and does not decode to the claimed
record either: its absolute time entry consumes 00 a8 33 5c bf 8b 01 00
(a different timestamp), after which channel 0 reads int16 payload 00 22 and
the trailing byte 0x29 is an undefined channel id. -/
theorem C1_counterexample :
    writeFile [s1Append] = some s1Bytes ∧
    s1Bytes ≠ claimedS1Bytes ∧
    ¬ (claimedS1Bytes <+: s1Bytes) ∧
    decodeFile false claimedS1Bytes = .error .UnknownChannel :=
  ⟨rfl, by decide, by decide, rfl⟩

/-- C2: crash tolerance. A writer-produced file decodes without error; every
byte prefix of it, cut at an arbitrary boundary, decodes as an unfinalized
file without error to a prefix of the complete record stream, and decoded as
a finalized file it either yields such a prefix (the cut is at an entry
boundary) or fails with exactly FormatError.Truncated. -/
theorem C2_crash_tolerance {as : List Append} {bs : List Nat}
    (hw : writeFile as = some bs) :
    ∃ rs, decodeFile false bs = .ok rs ∧
      ∀ p, p <+: bs →
        (∃ rp, decodeFile false p = .ok rp ∧ rp <+: rs) ∧
        (decodeFile true p = .error .Truncated ∨
          ∃ rp, decodeFile true p = .ok rp ∧ rp <+: rs) := by
  obtain ⟨w2, rs, -, hbs, hrun, hdec, -, -, -⟩ := writeFile_decode hw
  refine ⟨rs, hdec, ?_⟩
  intro p hp
  by_cases hlen : p.length < 12
  · have hph : p = header.take p.length := by
      have h1 : p = bs.take p.length := List.prefix_iff_eq_take.mp hp
      rw [hbs, List.take_append_eq_append_take,
        show p.length - header.length = 0 from by
          rw [header_eq]; simp at hlen ⊢; omega] at h1
      simpa using h1
    constructor
    · refine ⟨[], ?_, List.nil_prefix⟩
      unfold decodeFile
      rw [if_pos hlen, if_neg (by simp), if_pos hph]
    · left
      unfold decodeFile
      rw [if_pos hlen, if_pos (by simp)]
  · have h12 : 12 ≤ p.length := by omega
    obtain ⟨t, ht⟩ := hp
    have htake : p.take 12 = header := by
      have h2 : (p ++ t).take 12 = p.take 12 := by
        rw [List.take_append_eq_append_take,
          show 12 - p.length = 0 from by omega]
        simp
      rw [ht] at h2
      rw [← h2, hbs, show (12 : Nat) = header.length from rfl, List.take_left]
    have hsplit : p = header ++ p.drop 12 := by
      conv_lhs => rw [← List.take_append_drop 12 p]
      rw [htake]
    have h3 : header ++ (p.drop 12 ++ t) = header ++ w2.bytes := by
      rw [← List.append_assoc, ← hsplit, ht, hbs]
    have hqt : p.drop 12 ++ t = w2.bytes := by
      have h4 := congrArg (List.drop 12) h3
      rwa [show (12 : Nat) = header.length from rfl, List.drop_left,
        List.drop_left] at h4
    have hq : p.drop 12 <+: w2.bytes := ⟨t, hqt⟩
    have hnone : (runDec initDec w2.bytes).2.2 = none := by rw [hrun]
    obtain ⟨hpre, herr⟩ := runDec_prefix hq hnone
    rw [hrun] at hpre
    have hdf : ∀ fin, decodeFile fin p = decodeEntries fin initDec (p.drop 12) := by
      intro fin
      conv_lhs => rw [hsplit]
      rw [decodeFile_header]
    constructor
    · refine ⟨(runDec initDec (p.drop 12)).1, ?_, hpre⟩
      rw [hdf false, decodeEntries_eq]
      rcases herr with he | ⟨e, he, htr⟩
      · rw [he]
      · rw [he]
        simp [htr]
    · rcases herr with he | ⟨e, he, htr⟩
      · right
        refine ⟨(runDec initDec (p.drop 12)).1, ?_, hpre⟩
        rw [hdf true, decodeEntries_eq, he]
      · left
        rw [hdf true, decodeEntries_eq, he]
        simp [htr]

/-- C2 witness: the crash-tolerance statement at the concrete S1 file. -/
theorem C2_crash_tolerance_witness :
    ∃ rs, decodeFile false s1Bytes = .ok rs ∧
      ∀ p, p <+: s1Bytes →
        (∃ rp, decodeFile false p = .ok rp ∧ rp <+: rs) ∧
        (decodeFile true p = .error .Truncated ∨
          ∃ rp, decodeFile true p = .ok rp ∧ rp <+: rs) :=
  @C2_crash_tolerance [s1Append] s1Bytes rfl

/-- C3: dense channel-id allocation. In every writer-produced file the 8-bit
channel ids of the channel definition records are exactly 0..k-1 in order,
for some k at most 0xf0, and a 16-bit id (0xf0 and up) appears if and only
if all 240 8-bit ids are allocated and a 241st distinct channel appears. -/
theorem C3_dense_allocation {as : List Append} {bs : List Nat} {rs : List Record}
    (hw : writeFile as = some bs) (hd : decodeFile false bs = .ok rs) :
    ∃ k, k ≤ 0xf0 ∧
      ((chanDefsOf rs).map (fun c => c.1)).filter (fun i => decide (i < 0xf0))
        = List.range k ∧
      ((∃ i ∈ (chanDefsOf rs).map (fun c => c.1), 0xf0 ≤ i) ↔
        (k = 0xf0 ∧ 0xf0 < ((chanDefsOf rs).map (fun c => c.1)).length)) := by
  obtain ⟨w2, rs0, hinv, -, -, hdec, -, -, hcd⟩ := writeFile_decode hw
  rw [hdec] at hd
  injection hd with h
  subst h
  obtain ⟨hn8, hn16l, hn16u, hdense, hshape, -⟩ := hinv
  rw [hcd, hshape]
  refine ⟨w2.next8, hn8, ?_, ?_⟩
  · unfold idShape
    rw [List.filter_append]
    have h1 : (List.range w2.next8).filter (fun i => decide (i < 0xf0))
        = List.range w2.next8 := by
      apply List.filter_eq_self.mpr
      intro a ha
      have := List.mem_range.mp ha
      simp only [decide_eq_true_eq]
      omega
    have h2 : ((List.range (w2.next16 - 0xf0)).map (fun i => 0xf0 + i)).filter
        (fun i => decide (i < 0xf0)) = [] := by
      rw [List.filter_eq_nil_iff]
      intro a ha
      obtain ⟨j, hj, hja⟩ := List.mem_map.mp ha
      simp only [decide_eq_true_eq]
      omega
    rw [h1, h2, List.append_nil]
  · constructor
    · rintro ⟨i, hi, h16i⟩
      rcases idShape_mem_bound hn8 hn16l hi with hcase | hcase
      · exact absurd h16i (by omega)
      · have h8full := hdense (by omega)
        refine ⟨h8full, ?_⟩
        unfold idShape
        rw [List.length_append, List.length_range, List.length_map,
          List.length_range]
        omega
    · rintro ⟨hk, hlen⟩
      unfold idShape at hlen
      rw [List.length_append, List.length_range, List.length_map,
        List.length_range] at hlen
      refine ⟨0xf0 + 0, ?_, by omega⟩
      apply List.mem_append.mpr
      right
      apply List.mem_map.mpr
      exact ⟨0, List.mem_range.mpr (by omega), rfl⟩

/-- C3 witness: dense allocation at the concrete S1 file (one channel, so
k = 1 and no 16-bit id). -/
theorem C3_dense_allocation_witness :
    ∃ k, k ≤ 0xf0 ∧
      ((chanDefsOf s1Records).map (fun c => c.1)).filter (fun i => decide (i < 0xf0))
        = List.range k ∧
      ((∃ i ∈ (chanDefsOf s1Records).map (fun c => c.1), 0xf0 ≤ i) ↔
        (k = 0xf0 ∧ 0xf0 < ((chanDefsOf s1Records).map (fun c => c.1)).length)) :=
  @C3_dense_allocation [s1Append] s1Bytes s1Records rfl rfl

/-- C4: missing-timestamp rule. Decoding a value entry (8-bit type byte
0x00..0xef, or the 0xff escape with a 16-bit id) while no time entry has
set the current timestamp fails with FormatError.MissingTimestamp; once the
timestamp is set, a decoded value entry carries it in its record and leaves
the state unchanged, so it applies to every following value until the next
time entry changes it. -/
theorem C4_missing_timestamp :
    (∀ st b r, st.currentTimestamp = none → b ≤ 0xef →
        decodeEntry st (b :: r) = .error .MissingTimestamp) ∧
    (∀ st cid r, st.currentTimestamp = none → 0xf0 ≤ cid → cid ≤ 0xffff →
        decodeEntry st (0xff :: (leBytes 2 cid ++ r))
          = .error .MissingTimestamp) ∧
    (∀ st ts cid fid nm payload v, st.currentTimestamp = some ts →
        lookupChan st.channels cid = some (fid, nm) →
        decodePayload fid payload = .ok (v, []) → cid ≤ 0xffff →
        decodeEntry st (valueEntryBytes cid payload)
          = .ok (.value nm fid ts v, st, [])) := by
  refine ⟨?_, ?_, ?_⟩
  · intro st b r hst hb
    rw [de_val8 hb, hst]
  · intro st cid r hst h1 h2
    rw [de_esc, readN_exact_append (leBytes_length 2 cid) r,
      leVal_leBytes_of_lt (by norm_num; omega)]
    simp only [hst]
    rw [if_neg (by omega)]
  · intro st ts cid fid nm payload v hts hlc hpl hid
    exact decode_valueEntryBytes hts hlc hpl hid

/-- C4 witness: the missing-timestamp rule at concrete entries. -/
theorem C4_missing_timestamp_witness :
    decodeEntry ⟨none, [(0, 0x22, [0x61])]⟩ [0x00, 0x29, 0x09]
      = .error .MissingTimestamp ∧
    decodeEntry ⟨none, []⟩ (0xff :: (leBytes 2 0xf0 ++ [0x29, 0x09]))
      = .error .MissingTimestamp ∧
    decodeEntry ⟨some 5, [(0, 0x22, [0x61])]⟩ (valueEntryBytes 0 [0x29, 0x09])
      = .ok (.value [0x61] 0x22 5 (.num ((2345 : ℚ) / 100)),
             ⟨some 5, [(0, 0x22, [0x61])]⟩, []) :=
  ⟨C4_missing_timestamp.1 ⟨none, [(0, 0x22, [0x61])]⟩ 0 [0x29, 0x09] rfl
      (by norm_num),
   C4_missing_timestamp.2.1 ⟨none, []⟩ 0xf0 [0x29, 0x09] rfl (by norm_num)
      (by norm_num),
   C4_missing_timestamp.2.2 ⟨some 5, [(0, 0x22, [0x61])]⟩ 5 0 0x22 [0x61]
      [0x29, 0x09] (.num ((2345 : ℚ) / 100)) rfl rfl rfl (by norm_num)⟩

/-- C5 (corrected): timestamp monotonicity holds for a writer-produced file
when the appended timestamps are non-decreasing; then the decoded value
records carry non-decreasing timestamps. Without that hypothesis the claim
is false: see the counterexample, where the writer accepts a backward
append and emits a backward absolute time entry. -/
theorem C5_timestamp_monotonicity {as : List Append} {bs : List Nat}
    {rs : List Record}
    (hmono : List.Chain' (fun x y => x ≤ y) (as.map (fun a => a.ts)))
    (hw : writeFile as = some bs) (hd : decodeFile false bs = .ok rs) :
    List.Chain' (fun x y => x ≤ y) (valueTsOf rs) := by
  obtain ⟨w2, rs0, -, -, -, hdec, hts, -, -⟩ := writeFile_decode hw
  rw [hdec] at hd
  injection hd with h
  subst h
  rw [hts]
  exact hmono

/-- C5 counterexample: the writer accepts two appends with timestamps 100
then 50 and emits a file whose decoded value records carry timestamps
[100, 50] - the decoder's current timestamp moves backwards across the
second (absolute) time entry, so consecutive value records are not
non-decreasing. -/
theorem C5_counterexample :
    writeFile c5Appends = some c5Bytes ∧
    decodeFile false c5Bytes = .ok c5Records ∧
    valueTsOf c5Records = [100, 50] ∧
    ¬ List.Chain' (fun x y => x ≤ y) (valueTsOf c5Records) :=
  ⟨rfl, rfl, rfl, by norm_num [c5Records, valueTsOf, List.chain'_cons]⟩

/-- C5 witness: the monotone conclusion at a concrete monotone append pair. -/
theorem C5_timestamp_monotonicity_witness :
    List.Chain' (fun x y => x ≤ y) (valueTsOf c5MonoRecords) :=
  @C5_timestamp_monotonicity c5MonoAppends c5MonoBytes c5MonoRecords
    (by norm_num [c5MonoAppends, List.chain'_cons]) rfl rfl

/-! ## Helper lemmas for the query facade and frontend claims -/

theorem foldr_min_le_mem {l : List ℚ} {a x : ℚ} (hx : x ∈ l) : l.foldr min a ≤ x := by
  induction l with
  | nil => cases hx
  | cons b l ih =>
    rcases List.mem_cons.mp hx with h | h
    · rw [h]
      exact min_le_left _ _
    · exact le_trans (min_le_right _ _) (ih h)

theorem foldr_min_cases (l : List ℚ) (a : ℚ) :
    l.foldr min a = a ∨ l.foldr min a ∈ l := by
  induction l with
  | nil => exact Or.inl rfl
  | cons b l ih =>
    rw [List.foldr_cons]
    rcases min_choice b (l.foldr min a) with h | h
    · rw [h]
      exact Or.inr (List.mem_cons_self b l)
    · rw [h]
      rcases ih with h2 | h2
      · exact Or.inl h2
      · exact Or.inr (List.mem_cons_of_mem b h2)

theorem le_foldr_max_mem {l : List ℚ} {a x : ℚ} (hx : x ∈ l) : x ≤ l.foldr max a := by
  induction l with
  | nil => cases hx
  | cons b l ih =>
    rcases List.mem_cons.mp hx with h | h
    · rw [h]
      exact le_max_left _ _
    · exact le_trans (ih h) (le_max_right _ _)

theorem init_le_foldr_max (l : List ℚ) (a : ℚ) : a ≤ l.foldr max a := by
  induction l with
  | nil => exact le_refl a
  | cons b l ih => exact le_trans ih (le_max_right _ _)

theorem foldr_max_cases (l : List ℚ) (a : ℚ) :
    l.foldr max a = a ∨ l.foldr max a ∈ l := by
  induction l with
  | nil => exact Or.inl rfl
  | cons b l ih =>
    rw [List.foldr_cons]
    rcases max_choice b (l.foldr max a) with h | h
    · rw [h]
      exact Or.inr (List.mem_cons_self b l)
    · rw [h]
      rcases ih with h2 | h2
      · exact Or.inl h2
      · exact Or.inr (List.mem_cons_of_mem b h2)

theorem getLast?_spec {α : Type} (l : List α) :
    (l = [] ∧ l.getLast? = none) ∨
      ∃ l2 x, l = l2 ++ [x] ∧ l.getLast? = some x := by
  induction l using List.reverseRecOn with
  | nil => exact Or.inl ⟨rfl, rfl⟩
  | append_singleton l2 x _ => exact Or.inr ⟨l2, x, rfl, by simp⟩

theorem breakLongGapsAux_eq (gapMs : ℚ) :
    ∀ (rest : List ChartPoint) (p : ChartPoint),
      p :: breakLongGapsAux gapMs p rest = gapSpecInsert gapMs (p :: rest) := by
  intro rest
  induction rest with
  | nil => intro p; rfl
  | cons q rest ih =>
    intro p
    rw [breakLongGapsAux, gapSpecInsert, ← ih q]
    cases hp : p.ts with
    | none => simp
    | some pt =>
      cases hq : q.ts with
      | none => simp
      | some ct =>
        by_cases hgap : gapMs ≤ ct - pt
        · simp [hgap]
        · simp [hgap]

/-- C6: get_events contract. Over the samples in the window: the downsampled
flag is set iff the sample count exceeds max_events; the reported decimal
places are the maximum display hint over the contributing format ids; when
the count is within max_events the points are exactly the raw samples; when
it exceeds max_events there are at most max 1 max_events points, each a
bucket over a nonempty subsequence of the window whose avg is its mean and
whose min and max bound and are attained by its members. -/
theorem C6_get_events (samples : List EvSample) (startMs endMs maxEvents : Nat) :
    ((getEvents samples startMs endMs maxEvents).2.1 = true ↔
      maxEvents
        < (samples.filter (fun x => decide (startMs ≤ x.ts ∧ x.ts ≤ endMs))).length) ∧
    (getEvents samples startMs endMs maxEvents).2.2
      = ((samples.filter (fun x => decide (startMs ≤ x.ts ∧ x.ts ≤ endMs))).map
          (fun x => decimalsOfFormat x.fid)).foldr max 0 ∧
    ((samples.filter (fun x => decide (startMs ≤ x.ts ∧ x.ts ≤ endMs))).length
        ≤ maxEvents →
      (getEvents samples startMs endMs maxEvents).1
        = (samples.filter (fun x => decide (startMs ≤ x.ts ∧ x.ts ≤ endMs))).map
            (fun x => EvPoint.raw x.ts x.q)) ∧
    (maxEvents
        < (samples.filter (fun x => decide (startMs ≤ x.ts ∧ x.ts ≤ endMs))).length →
      (getEvents samples startMs endMs maxEvents).1.length ≤ max 1 maxEvents ∧
      ∀ p ∈ (getEvents samples startMs endMs maxEvents).1,
        ∃ ts avg mn mx, p = EvPoint.bucket ts avg mn mx ∧
          ∃ g, g ≠ [] ∧
            g.Sublist (samples.filter (fun x => decide (startMs ≤ x.ts ∧ x.ts ≤ endMs))) ∧
            avg = ((g.map (fun x => x.q)).foldr (· + ·) 0) / g.length ∧
            (∀ x ∈ g, mn ≤ x.q ∧ x.q ≤ mx) ∧
            (∃ x ∈ g, x.q = mn) ∧ (∃ x ∈ g, x.q = mx)) := by
  simp only [getEvents]
  by_cases hle :
      (samples.filter (fun x => decide (startMs ≤ x.ts ∧ x.ts ≤ endMs))).length
        ≤ maxEvents
  · rw [if_pos hle]
    refine ⟨?_, rfl, fun _ => rfl, fun hgt => absurd hgt (by omega)⟩
    show false = true ↔ _
    exact ⟨fun h => absurd h (by simp), fun h => absurd h (by omega)⟩
  · rw [if_neg hle]
    refine ⟨?_, rfl, fun hle2 => absurd hle2 hle, fun _ => ⟨?_, ?_⟩⟩
    · show true = true ↔ _
      exact ⟨fun _ => by omega, fun _ => rfl⟩
    · exact le_trans (List.length_filterMap_le _ _) (by rw [List.length_range])
    · intro p hp
      obtain ⟨i, hi, hfi⟩ := List.mem_filterMap.mp hp
      cases hfil : (samples.filter (fun x => decide (startMs ≤ x.ts ∧ x.ts ≤ endMs))).filter
          (fun x => decide (bucketIdx startMs endMs (max 1 maxEvents) x.ts = i)) with
      | nil => rw [hfil] at hfi; cases hfi
      | cons m ms =>
        rw [hfil] at hfi
        simp only [Option.some.injEq] at hfi
        refine ⟨_, _, _, _, hfi.symm, m :: ms, List.cons_ne_nil m ms, ?_, rfl, ?_, ?_, ?_⟩
        · rw [← hfil]
          exact List.filter_sublist _
        · intro x hx
          have hxm : x.q ∈ (m :: ms).map (fun x => x.q) := List.mem_map_of_mem _ hx
          exact ⟨foldr_min_le_mem hxm, le_foldr_max_mem hxm⟩
        · rcases foldr_min_cases ((m :: ms).map (fun x => x.q)) m.q with h | h
          · exact ⟨m, List.mem_cons_self m ms, h.symm⟩
          · obtain ⟨x, hxg, hxq⟩ := List.mem_map.mp h
            exact ⟨x, hxg, hxq⟩
        · rcases foldr_max_cases ((m :: ms).map (fun x => x.q)) m.q with h | h
          · exact ⟨m, List.mem_cons_self m ms, h.symm⟩
          · obtain ⟨x, hxg, hxq⟩ := List.mem_map.mp h
            exact ⟨x, hxg, hxq⟩

/-- C6 witness: the contract at a concrete window that stays raw. -/
theorem C6_get_events_witness :
    (getEvents [⟨1, 5, 0x22⟩, ⟨2, 7, 0x22⟩] 0 10 5).1
      = [EvPoint.raw 1 5, EvPoint.raw 2 7] := by
  have h := (C6_get_events [⟨1, 5, 0x22⟩, ⟨2, 7, 0x22⟩] 0 10 5).2.2.1 (by norm_num)
  rw [h]
  rfl

/-- C7: get_stats contract. count is the number of samples in the window;
current_value is the value of the last sample whose timestamp is at most the
window end and within 60 seconds of now, and is absent exactly when no such
sample exists; max_value is some numeric value attained in the window and an
upper bound of all numeric values there, and is absent exactly when the
window holds no numeric value (in particular for string channels). -/
theorem C7_get_stats (samples : List StatSample) (startMs endMs nowMs : Nat) :
    (getStats samples startMs endMs nowMs).1
      = (samples.filter (fun x => decide (startMs ≤ x.ts ∧ x.ts ≤ endMs))).length ∧
    ((getStats samples startMs endMs nowMs).2.1 = none ↔
      samples.filter (fun x => decide (x.ts ≤ endMs ∧ nowMs ≤ x.ts + 60000)) = []) ∧
    (∀ v, (getStats samples startMs endMs nowMs).2.1 = some v →
      ∃ pre x,
        samples.filter (fun x => decide (x.ts ≤ endMs ∧ nowMs ≤ x.ts + 60000))
          = pre ++ [x] ∧ v = x.val) ∧
    (∀ q, (getStats samples startMs endMs nowMs).2.2 = some q →
      (∃ x ∈ samples.filter (fun x => decide (startMs ≤ x.ts ∧ x.ts ≤ endMs)),
        numVal x.val = some q) ∧
      ∀ x ∈ samples.filter (fun x => decide (startMs ≤ x.ts ∧ x.ts ≤ endMs)),
        ∀ r, numVal x.val = some r → r ≤ q) ∧
    ((getStats samples startMs endMs nowMs).2.2 = none ↔
      ∀ x ∈ samples.filter (fun x => decide (startMs ≤ x.ts ∧ x.ts ≤ endMs)),
        numVal x.val = none) := by
  simp only [getStats]
  refine ⟨trivial, ?_, ?_, ?_, ?_⟩
  · rcases getLast?_spec
        (samples.filter (fun x => decide (x.ts ≤ endMs ∧ nowMs ≤ x.ts + 60000))) with
      ⟨hnil, hlast⟩ | ⟨l2, x, hcat, hlast⟩
    · rw [hlast, hnil]
      simp
    · rw [hlast, hcat]
      simp
  · intro v hv
    rcases getLast?_spec
        (samples.filter (fun x => decide (x.ts ≤ endMs ∧ nowMs ≤ x.ts + 60000))) with
      ⟨hnil, hlast⟩ | ⟨l2, x, hcat, hlast⟩
    · rw [hlast] at hv
      cases hv
    · rw [hlast] at hv
      simp at hv
      exact ⟨l2, x, hcat, hv.symm⟩
  · intro q hq
    cases hnums : (samples.filter (fun x => decide (startMs ≤ x.ts ∧ x.ts ≤ endMs))).filterMap
        (fun x => numVal x.val) with
    | nil => rw [hnums] at hq; cases hq
    | cons q0 qs =>
      rw [hnums] at hq
      simp only [Option.some.injEq] at hq
      constructor
      · have hqmem : q ∈ q0 :: qs := by
          rw [← hq]
          rcases foldr_max_cases qs q0 with h | h
          · rw [h]
            exact List.mem_cons_self q0 qs
          · exact List.mem_cons_of_mem q0 h
        rw [← hnums] at hqmem
        obtain ⟨x, hxw, hxq⟩ := List.mem_filterMap.mp hqmem
        exact ⟨x, hxw, hxq⟩
      · intro x hxw r hr
        have hrmem : r ∈ q0 :: qs := by
          rw [← hnums]
          exact List.mem_filterMap.mpr ⟨x, hxw, hr⟩
        rcases List.mem_cons.mp hrmem with h | h
        · rw [h, ← hq]
          exact init_le_foldr_max qs q0
        · rw [← hq]
          exact le_foldr_max_mem h
  · cases hnums : (samples.filter (fun x => decide (startMs ≤ x.ts ∧ x.ts ≤ endMs))).filterMap
        (fun x => numVal x.val) with
    | nil =>
      simp only [true_iff]
      intro x hxw
      cases hnv : numVal x.val with
      | none => rfl
      | some r =>
        have : r ∈ ([] : List ℚ) := by
          rw [← hnums]
          exact List.mem_filterMap.mpr ⟨x, hxw, hnv⟩
        cases this
    | cons q0 qs =>
      constructor
      · intro h
        cases h
      · intro hall
        have hq0 : q0 ∈ q0 :: qs := List.mem_cons_self q0 qs
        rw [← hnums] at hq0
        obtain ⟨x, hxw, hxq⟩ := List.mem_filterMap.mp hq0
        rw [hall x hxw] at hxq
        cases hxq

/-- C7 witness: the contract's current and max components at concrete
samples - the value at time 8 is current (within 60 s of now = 60005) and
the maximum numeric value in the window is 9. -/
theorem C7_get_stats_witness :
    (∃ pre x,
        ([⟨5, .num 3⟩, ⟨7, .num 9⟩, ⟨8, .num 4⟩] : List StatSample).filter
            (fun x => decide (x.ts ≤ 10 ∧ 60005 ≤ x.ts + 60000))
          = pre ++ [x] ∧ Value.num 4 = x.val) ∧
    ((∃ x ∈ ([⟨5, .num 3⟩, ⟨7, .num 9⟩, ⟨8, .num 4⟩] : List StatSample).filter
          (fun x => decide (0 ≤ x.ts ∧ x.ts ≤ 10)),
        numVal x.val = some 9) ∧
      ∀ x ∈ ([⟨5, .num 3⟩, ⟨7, .num 9⟩, ⟨8, .num 4⟩] : List StatSample).filter
          (fun x => decide (0 ≤ x.ts ∧ x.ts ≤ 10)),
        ∀ r, numVal x.val = some r → r ≤ 9) :=
  ⟨(C7_get_stats [⟨5, .num 3⟩, ⟨7, .num 9⟩, ⟨8, .num 4⟩] 0 10 60005).2.2.1
      (.num 4) rfl,
   (C7_get_stats [⟨5, .num 3⟩, ⟨7, .num 9⟩, ⟨8, .num 4⟩] 0 10 60005).2.2.2.1
      9 rfl⟩

/-- C8: gap breaking preserves data. breakLongGaps returns exactly the
input points in order with one null marker [prevTs + 1, null] inserted
between each consecutive pair of finite timestamps at least gapMs apart
(the refinement gapSpecInsert states the claim's words directly), and the
charts invoke it with gapMs = 3_600_000 milliseconds. -/
theorem C8_gap_breaking :
    (∀ (points : List ChartPoint) (gapMs : ℚ),
      breakLongGaps points gapMs = gapSpecInsert gapMs points) ∧
    chartGapMs = 3600000 := by
  refine ⟨?_, rfl⟩
  intro points gapMs
  cases points with
  | nil => rfl
  | cons p rest =>
    cases rest with
    | nil => rfl
    | cons q rest2 =>
      show p :: breakLongGapsAux gapMs p (q :: rest2)
        = gapSpecInsert gapMs (p :: q :: rest2)
      exact breakLongGapsAux_eq gapMs (q :: rest2) p

/-- C9: console log bound. After appendConsoleLine the buffer holds at most
maxConsoleLines = 3000 entries, its length is exactly the smaller of
(previous length + 1) and the bound, and it is a suffix of the previous
buffer with the new line appended - the most recent lines, in their
original order. -/
theorem C9_console_bound (buf : List String) (line : String) :
    (appendConsoleLine buf line).length ≤ maxConsoleLines ∧
    (appendConsoleLine buf line).length = min (buf.length + 1) maxConsoleLines ∧
    appendConsoleLine buf line <:+ buf ++ [line] ∧
    maxConsoleLines = 3000 := by
  have hlen : (buf ++ [line]).length = buf.length + 1 := by simp
  simp only [appendConsoleLine]
  by_cases h : maxConsoleLines < (buf ++ [line]).length
  · rw [if_pos h]
    refine ⟨?_, ?_, List.drop_suffix _ _, rfl⟩
    · rw [List.length_drop]
      omega
    · rw [List.length_drop, hlen]
      rw [hlen] at h
      omega
  · rw [if_neg h]
    refine ⟨?_, ?_, List.suffix_refl _, rfl⟩
    · omega
    · rw [hlen]
      rw [hlen] at h
      omega

/-- C10: decimal-places clamping. normalizeDecimalPlaces always returns an
integer in [0, 12]; a non-numeric (none) or negative input yields the
default 3, an input above 12 yields 12, and any other finite input yields
its floor. -/
theorem C10_decimal_clamping (x : Option ℚ) :
    0 ≤ normalizeDecimalPlaces x ∧ normalizeDecimalPlaces x ≤ 12 ∧
    normalizeDecimalPlaces none = 3 ∧
    (∀ n : ℚ, n < 0 → normalizeDecimalPlaces (some n) = 3) ∧
    (∀ n : ℚ, 12 < n → normalizeDecimalPlaces (some n) = 12) ∧
    (∀ n : ℚ, 0 ≤ n → n ≤ 12 → normalizeDecimalPlaces (some n) = ⌊n⌋) := by
  refine ⟨?_, ?_, rfl, ?_, ?_, ?_⟩
  · cases x with
    | none => norm_num [normalizeDecimalPlaces]
    | some n =>
      simp only [normalizeDecimalPlaces]
      split_ifs with h1 h2
      · norm_num
      · norm_num
      · exact Int.floor_nonneg.mpr (le_of_not_lt h1)
  · cases x with
    | none => norm_num [normalizeDecimalPlaces]
    | some n =>
      simp only [normalizeDecimalPlaces]
      split_ifs with h1 h2
      · norm_num
      · norm_num
      · calc ⌊n⌋ ≤ ⌊(12 : ℚ)⌋ := Int.floor_le_floor (le_of_not_lt h2)
          _ = 12 := by norm_num
  · intro n hn
    simp only [normalizeDecimalPlaces]
    rw [if_pos hn]
  · intro n hn
    simp only [normalizeDecimalPlaces]
    rw [if_neg (by linarith), if_pos hn]
  · intro n h0 h12
    simp only [normalizeDecimalPlaces]
    rw [if_neg (by linarith), if_neg (by linarith)]

/-- C10 witness: the clamping at concrete inputs (negative, too large, and
a mid-range non-integer). -/
theorem C10_decimal_clamping_witness :
    normalizeDecimalPlaces (some (-1)) = 3 ∧
    normalizeDecimalPlaces (some 99) = 12 ∧
    normalizeDecimalPlaces (some (7 / 2)) = ⌊(7 : ℚ) / 2⌋ :=
  ⟨(C10_decimal_clamping (some (-1))).2.2.2.1 (-1) (by norm_num),
   (C10_decimal_clamping (some 99)).2.2.2.2.1 99 (by norm_num),
   (C10_decimal_clamping (some (7 / 2))).2.2.2.2.2 (7 / 2) (by norm_num)
      (by norm_num)⟩

end PvView

